import Mathlib

/-!
Verification of the similarity-matrix-backed density clustering engine of
Text2VectorCluster-Web-ZH.  The JavaScript source is shallowly embedded:
JS numbers are modelled as exact rationals, JS arrays as lists, the two JS
`Set`s (`visited`, `noise`) as lists used in insertion order, and the
`assignments` array of `null` / `-1` / cluster ids as `List (Option Int)`
with `none` for `null`.  The `while (seeds.length > 0)` loop of
`expandCluster` is embedded with an explicit step budget (`fuel`); the
budget chosen by `expandCluster` is proved sufficient below
(`expandLoop_measure`-style lemmas), so the embedded loop runs exactly
until its queue empties, as the JS loop does.
-/

/-- Embeds JS `vectorSimilarity(point1, point2)`: the loop
`for (i < point1.length) dotProduct += point1[i] * point2[i]`. -/
def vectorSimilarity (point1 point2 : List ℚ) : ℚ :=
  (List.range point1.length).foldl
    (fun dotProduct i => dotProduct + point1.getD i 0 * point2.getD i 0) 0

/-- Embeds JS `computeDistanceMatrixCPU(points)`: the zero-filled N×N array is
overwritten at every entry `(i, j)` with `vectorSimilarity(points[i], points[j])`,
so the result is exactly this doubly indexed table. -/
def computeDistanceMatrixCPU (points : List (List ℚ)) : List (List ℚ) :=
  (List.range points.length).map (fun i =>
    (List.range points.length).map (fun j =>
      vectorSimilarity (points.getD i []) (points.getD j [])))

/-- Embeds JS `computeDistanceMatrix(points, useGPU)`.  The parts that depend on
the browser environment are parameters of the embedding: `gpuAvailable` stands
for `'gpu' in navigator`, and `attempt` for the outcome of the `try` block
running the WebGPU kernel (`Except.error` when anything inside the `try`
throws, which the JS `catch` turns into a CPU recomputation). -/
def computeDistanceMatrix (points : List (List ℚ)) (useGPU : Bool)
    (gpuAvailable : Bool) (attempt : Except String (List (List ℚ))) :
    List (List ℚ) :=
  if useGPU && gpuAvailable then
    match attempt with
    | .ok similarityMatrix => similarityMatrix
    | .error _ => computeDistanceMatrixCPU points
  else computeDistanceMatrixCPU points

/-- Reads entry `(i, j)` of the nested-array similarity matrix, as the JS
`similarityMatrix[pointIndex][i]` indexing does. -/
def matrixEntry (M : List (List ℚ)) (i j : ℕ) : ℚ :=
  (M.getD i []).getD j 0

/-- Embeds `getNeighborsFromMatrix(pointIndex)` inside JS `dbscan`:
`for (i < points.length) if (similarityMatrix[pointIndex][i] >= epsilon)
neighbors.push(i)`.  `n` is `points.length`. -/
def getNeighborsFromMatrix (n : ℕ) (M : List (List ℚ)) (epsilon : ℚ)
    (pointIndex : ℕ) : List ℕ :=
  (List.range n).filter (fun i => decide (epsilon ≤ matrixEntry M pointIndex i))

/-- The mutable per-run state of JS `dbscan`: the `visited` set, the `noise`
set (both JS `Set`s, kept in insertion order) and the `assignments` array
(`none` = JS `null`). -/
structure DbscanState where
  visited : List ℕ
  noise : List ℕ
  assignments : List (Option ℤ)
deriving DecidableEq

/-- Initial state of a `dbscan` run: empty sets, `assignments` all `null`. -/
def initState (n : ℕ) : DbscanState :=
  { visited := [], noise := [], assignments := List.replicate n none }

/-- One dequeue of the `expandCluster` while-loop, first half: the
`if (!visited.has(currentPoint))` block.  Marks the point visited, and if it
is a core point pushes its not-yet-visited neighbors onto the queue.
Returns the updated queue (`rest` is the queue after the `shift()`). -/
def expandVisit (n : ℕ) (M : List (List ℚ)) (epsilon : ℚ) (minPts : ℕ)
    (currentPoint : ℕ) (rest : List ℕ) (s : DbscanState) :
    List ℕ × DbscanState :=
  if currentPoint ∈ s.visited then (rest, s)
  else
    let visited' := s.visited ++ [currentPoint]
    let resultNeighbors := getNeighborsFromMatrix n M epsilon currentPoint
    let rest' :=
      if minPts ≤ resultNeighbors.length then
        rest ++ resultNeighbors.filter (fun x => decide (x ∉ visited'))
      else rest
    (rest', { s with visited := visited' })

/-- One dequeue of the `expandCluster` while-loop, second half: the
`if (assignments[currentPoint] === null)` block. -/
def expandAssign (clusterId : ℤ) (currentPoint : ℕ) (s : DbscanState) :
    DbscanState :=
  if s.assignments.getD currentPoint none = none then
    { s with assignments := s.assignments.set currentPoint (some clusterId) }
  else s

/-- The `while (seeds.length > 0)` loop of `expandCluster`, with an explicit
step budget.  Each iteration `shift()`s the head of the queue and performs
the two halves of the loop body. -/
def expandLoop (n : ℕ) (M : List (List ℚ)) (epsilon : ℚ) (minPts : ℕ)
    (clusterId : ℤ) : ℕ → List ℕ → DbscanState → DbscanState
  | 0, _, s => s
  | _ + 1, [], s => s
  | fuel + 1, currentPoint :: rest, s =>
    expandLoop n M epsilon minPts clusterId fuel
      (expandVisit n M epsilon minPts currentPoint rest s).1
      (expandAssign clusterId currentPoint
        (expandVisit n M epsilon minPts currentPoint rest s).2)

/-- Number of indices below `n` not yet in the visited set; used for the
loop budget. -/
def unvisitedCount (n : ℕ) (visited : List ℕ) : ℕ :=
  ((List.range n).filter (fun x => decide (x ∉ visited))).length

/-- Embeds JS `expandCluster(pointIndex, neighbors, clusterId)`: assigns the
root to the cluster, then runs the queue to exhaustion.  The budget
`neighbors.length + n * n` dominates the loop measure
`queue length + n * unvisitedCount`, which strictly decreases at every
iteration (proved below), so the embedded loop empties its queue exactly as
the JS `while` loop does. -/
def expandCluster (n : ℕ) (M : List (List ℚ)) (epsilon : ℚ) (minPts : ℕ)
    (pointIndex : ℕ) (neighbors : List ℕ) (clusterId : ℤ)
    (s : DbscanState) : DbscanState :=
  expandLoop n M epsilon minPts clusterId (neighbors.length + n * n) neighbors
    { s with assignments := s.assignments.set pointIndex (some clusterId) }

/-- One iteration of the outer `for (i < points.length)` scan of `dbscan`:
skip visited indices; otherwise visit `i`, and either label it noise
(`noise.add(i); assignments[i] = -1`) or expand a fresh cluster. -/
def scanStep (n : ℕ) (M : List (List ℚ)) (epsilon : ℚ) (minPts : ℕ)
    (acc : DbscanState × ℤ) (i : ℕ) : DbscanState × ℤ :=
  if i ∈ acc.1.visited then acc
  else
    let s := { acc.1 with visited := acc.1.visited ++ [i] }
    let neighbors := getNeighborsFromMatrix n M epsilon i
    if neighbors.length < minPts then
      ({ s with noise := s.noise ++ [i],
                assignments := s.assignments.set i (some (-1)) }, acc.2)
    else
      (expandCluster n M epsilon minPts i neighbors acc.2 s, acc.2 + 1)

/-- State and next cluster id after the outer scan has processed indices
`0, …, m-1`. -/
def scanStates (n : ℕ) (M : List (List ℚ)) (epsilon : ℚ) (minPts : ℕ)
    (m : ℕ) : DbscanState × ℤ :=
  (List.range m).foldl (scanStep n M epsilon minPts) (initState n, 0)

/-- The full outer scan of `dbscan` over indices `0, …, n-1`. -/
def dbscanScan (n : ℕ) (M : List (List ℚ)) (epsilon : ℚ) (minPts : ℕ) :
    DbscanState × ℤ :=
  scanStates n M epsilon minPts n

/-- One step of the final grouping loop of JS `dbscan`:
`if (assignments[i] >= 0) clusters[assignments[i]].push(i)`.  A `null`
assignment cannot occur at this point (proved below), so the embedding
skips it. -/
def buildStep (assignments : List (Option ℤ)) (clusters : List (List ℕ))
    (i : ℕ) : List (List ℕ) :=
  match assignments.getD i none with
  | some k =>
    if 0 ≤ k then
      clusters.set k.toNat (clusters.getD k.toNat [] ++ [i])
    else clusters
  | none => clusters

/-- Embeds the final grouping of JS `dbscan`: `clusters[i] = []` for each id,
then `for (i < assignments.length) if (assignments[i] >= 0)
clusters[assignments[i]].push(i)`.  Indices are pushed in ascending order
into the bucket named by their assignment. -/
def buildClusters (clusterCount : ℕ) (assignments : List (Option ℤ)) :
    List (List ℕ) :=
  (List.range assignments.length).foldl (buildStep assignments)
    (List.replicate clusterCount [])

/-- Result of a `dbscan` run: the cluster list and `Array.from(noise)`. -/
structure DbscanResult where
  clusters : List (List ℕ)
  noise : List ℕ
deriving DecidableEq

/-- The clustering part of JS `dbscan`, applied to an already computed
similarity matrix (`n` is `points.length`). -/
def dbscanFromMatrix (n : ℕ) (M : List (List ℚ)) (epsilon : ℚ)
    (minPts : ℕ) : DbscanResult :=
  { clusters := buildClusters (dbscanScan n M epsilon minPts).2.toNat
      (dbscanScan n M epsilon minPts).1.assignments,
    noise := (dbscanScan n M epsilon minPts).1.noise }

/-- Embeds JS `dbscan(points, epsilon, minPts, useGPU)`: compute the
similarity matrix (with the environment-dependent accelerated attempt as
parameters), then run the scan.  The JS function is `async` but performs no
I/O of its own; any error thrown inside the accelerated attempt is caught by
`computeDistanceMatrix`, so the embedding is a total function. -/
def dbscan (points : List (List ℚ)) (epsilon : ℚ) (minPts : ℕ)
    (useGPU : Bool) (gpuAvailable : Bool)
    (attempt : Except String (List (List ℚ))) : DbscanResult :=
  dbscanFromMatrix points.length
    (computeDistanceMatrix points useGPU gpuAvailable attempt) epsilon minPts

/-- A 3×3 symmetric unit-diagonal similarity matrix on which index 0 is
provisionally labeled noise (its neighborhood at threshold 1/2 and
minPts 3 is {0, 1}) and is later dequeued by the expansion rooted at the
core point 1, exercising the reassignment check of `expandCluster`. -/
def exAbsorb : List (List ℚ) :=
  [[1, mkRat 9 10, 0], [mkRat 9 10, 1, mkRat 9 10], [0, mkRat 9 10, 1]]

/-- A 9×9 symmetric unit-diagonal similarity matrix: indices 0–3 are a
mutual 0.9-block, indices 4–7 a mutual 0.9-block, entry (7,8) is 0.9,
entry (3,8) is 0.6, and all remaining off-diagonal entries are 0.1.  At
threshold 8/10 with minPts 4 the border point 8 is claimed by the cluster
of 4–7; at the lower threshold 5/10 it is claimed first by the cluster of
0–3 instead. -/
def exSplit : List (List ℚ) :=
  [[1, mkRat 9 10, mkRat 9 10, mkRat 9 10,
    mkRat 1 10, mkRat 1 10, mkRat 1 10, mkRat 1 10, mkRat 1 10],
   [mkRat 9 10, 1, mkRat 9 10, mkRat 9 10,
    mkRat 1 10, mkRat 1 10, mkRat 1 10, mkRat 1 10, mkRat 1 10],
   [mkRat 9 10, mkRat 9 10, 1, mkRat 9 10,
    mkRat 1 10, mkRat 1 10, mkRat 1 10, mkRat 1 10, mkRat 1 10],
   [mkRat 9 10, mkRat 9 10, mkRat 9 10, 1,
    mkRat 1 10, mkRat 1 10, mkRat 1 10, mkRat 1 10, mkRat 6 10],
   [mkRat 1 10, mkRat 1 10, mkRat 1 10, mkRat 1 10,
    1, mkRat 9 10, mkRat 9 10, mkRat 9 10, mkRat 1 10],
   [mkRat 1 10, mkRat 1 10, mkRat 1 10, mkRat 1 10,
    mkRat 9 10, 1, mkRat 9 10, mkRat 9 10, mkRat 1 10],
   [mkRat 1 10, mkRat 1 10, mkRat 1 10, mkRat 1 10,
    mkRat 9 10, mkRat 9 10, 1, mkRat 9 10, mkRat 1 10],
   [mkRat 1 10, mkRat 1 10, mkRat 1 10, mkRat 1 10,
    mkRat 9 10, mkRat 9 10, mkRat 9 10, 1, mkRat 9 10],
   [mkRat 1 10, mkRat 1 10, mkRat 1 10, mkRat 6 10,
    mkRat 1 10, mkRat 1 10, mkRat 1 10, mkRat 9 10, 1]]

/-- The chain matrix of Scenario C: similarities 0↔1 and 1↔2 are 0.9,
0↔2 is 0.3, diagonal 1. -/
def exChain : List (List ℚ) :=
  [[1, mkRat 9 10, mkRat 3 10], [mkRat 9 10, 1, mkRat 9 10],
   [mkRat 3 10, mkRat 9 10, 1]]

/-- Loop measure of the `expandCluster` while-loop: queue length plus `n`
steps for every index that can still be visited.  It strictly decreases at
every iteration. -/
def expandMeasure (n : ℕ) (seeds : List ℕ) (s : DbscanState) : ℕ :=
  seeds.length + n * unvisitedCount n s.visited

/-- Well-formedness of the mutable scan state, relative to the exclusive
cluster-id bound `cid`: the `assignments` array has length `n`; visited
indices are in range; an index is visited exactly when its assignment is no
longer `null`; every assignment is `-1` or a cluster id below `cid`; every
cluster id below `cid` has at least one member; and the noise set is
exactly the set of indices assigned `-1`. -/
def StateWF (n : ℕ) (cid : ℤ) (s : DbscanState) : Prop :=
  s.assignments.length = n ∧
  (∀ x ∈ s.visited, x < n) ∧
  (∀ i, i ∈ s.visited ↔ s.assignments.getD i none ≠ none) ∧
  (∀ i v, s.assignments.getD i none = some v → v = -1 ∨ (0 ≤ v ∧ v < cid)) ∧
  (∀ k : ℤ, 0 ≤ k → k < cid → ∃ i, i < n ∧ s.assignments.getD i none = some k) ∧
  (∀ i, i ∈ s.noise ↔ s.assignments.getD i none = some (-1))

/-- Closure of the visited set up to the pending queue: the neighborhood of
every visited core point is either already visited or still queued.  With an
empty queue this says the visited set is closed under neighborhoods of
visited core points. -/
def ClosedQ (n : ℕ) (M : List (List ℚ)) (epsilon : ℚ) (minPts : ℕ)
    (seeds : List ℕ) (s : DbscanState) : Prop :=
  ∀ c, c < n → c ∈ s.visited →
    minPts ≤ (getNeighborsFromMatrix n M epsilon c).length →
    ∀ x ∈ getNeighborsFromMatrix n M epsilon c, x ∈ s.visited ∨ x ∈ seeds

/-- Invariant of the `expandCluster` while-loop for current cluster id
`cid`: the state is well-formed with assignments bounded by `cid + 1`, and
visited core neighborhoods are closed up to the queue. -/
def LoopInv (n : ℕ) (M : List (List ℚ)) (epsilon : ℚ) (minPts : ℕ)
    (cid : ℤ) (seeds : List ℕ) (s : DbscanState) : Prop :=
  StateWF n (cid + 1) s ∧ ClosedQ n M epsilon minPts seeds s

/-- Invariant of the outer scan after processing indices `0, …, m-1`. -/
def ScanInv (n : ℕ) (M : List (List ℚ)) (epsilon : ℚ) (minPts : ℕ)
    (m : ℕ) (s : DbscanState) (cid : ℤ) : Prop :=
  StateWF n cid s ∧ 0 ≤ cid ∧ (∀ j, j < m → j ∈ s.visited) ∧
  ClosedQ n M epsilon minPts [] s

/-! ### Basic list lemmas -/

theorem getD_set_self {α : Type} (l : List α) (i : ℕ) (a d : α)
    (h : i < l.length) : (l.set i a).getD i d = a := by
  simp [List.getD_eq_getElem?_getD, List.getElem?_set_self h]

theorem getD_set_other {α : Type} (l : List α) {i j : ℕ} (h : i ≠ j)
    (a d : α) : (l.set i a).getD j d = l.getD j d := by
  simp [List.getD_eq_getElem?_getD, List.getElem?_set_ne h]

theorem getD_replicate_none {α : Type} (n i : ℕ) (d : α) :
    (List.replicate n d).getD i d = d := by
  simp only [List.getD_eq_getElem?_getD, List.getElem?_replicate]
  split <;> rfl

theorem filter_sublist_mono {α : Type} {l : List α} {p q : α → Bool}
    (h : ∀ a ∈ l, p a = true → q a = true) :
    (l.filter p).Sublist (l.filter q) := by
  induction l with
  | nil => simp
  | cons a l ih =>
    have ih' := ih (fun x hx => h x (List.mem_cons_of_mem a hx))
    by_cases hp : p a = true
    · have hq := h a (List.mem_cons_self a l) hp
      simpa [List.filter_cons, hp, hq] using ih'.cons₂ a
    · simp only [List.filter_cons, Bool.not_eq_true] at hp ⊢
      rw [hp]
      simp only [Bool.false_eq_true, if_false]
      by_cases hq : q a = true
      · simp only [hq, if_true]
        exact ih'.cons a
      · simp only [Bool.not_eq_true] at hq
        rw [hq]
        simpa using ih'

/-! ### Neighborhood lemmas -/

theorem mem_getNeighbors {n : ℕ} {M : List (List ℚ)} {epsilon : ℚ}
    {p x : ℕ} :
    x ∈ getNeighborsFromMatrix n M epsilon p ↔
      x < n ∧ epsilon ≤ matrixEntry M p x := by
  simp [getNeighborsFromMatrix, List.mem_filter, List.mem_range]

theorem getNeighbors_lt {n : ℕ} {M : List (List ℚ)} {epsilon : ℚ}
    {p x : ℕ} (h : x ∈ getNeighborsFromMatrix n M epsilon p) : x < n :=
  (mem_getNeighbors.1 h).1

theorem length_getNeighbors_le (n : ℕ) (M : List (List ℚ)) (epsilon : ℚ)
    (p : ℕ) : (getNeighborsFromMatrix n M epsilon p).length ≤ n := by
  simpa using List.length_filter_le _ (List.range n)

theorem getNeighbors_anti_mem {n : ℕ} {M : List (List ℚ)}
    {epsilon epsilon' : ℚ} (h : epsilon' ≤ epsilon) {p x : ℕ}
    (hx : x ∈ getNeighborsFromMatrix n M epsilon p) :
    x ∈ getNeighborsFromMatrix n M epsilon' p := by
  rcases mem_getNeighbors.1 hx with ⟨h1, h2⟩
  exact mem_getNeighbors.2 ⟨h1, le_trans h h2⟩

theorem getNeighbors_anti_length {n : ℕ} {M : List (List ℚ)}
    {epsilon epsilon' : ℚ} (h : epsilon' ≤ epsilon) (p : ℕ) :
    (getNeighborsFromMatrix n M epsilon p).length ≤
      (getNeighborsFromMatrix n M epsilon' p).length := by
  refine List.Sublist.length_le (filter_sublist_mono ?_)
  intro a _ ha
  rw [decide_eq_true_eq] at ha ⊢
  exact le_trans h ha

/-! ### Rewrite lemmas for the loop step -/

theorem expandVisit_of_mem {n : ℕ} {M : List (List ℚ)} {epsilon : ℚ}
    {minPts p : ℕ} {rest : List ℕ} {s : DbscanState}
    (h : p ∈ s.visited) :
    expandVisit n M epsilon minPts p rest s = (rest, s) := by
  simp [expandVisit, h]

theorem expandVisit_core {n : ℕ} {M : List (List ℚ)} {epsilon : ℚ}
    {minPts p : ℕ} {rest : List ℕ} {s : DbscanState}
    (h : p ∉ s.visited)
    (hc : minPts ≤ (getNeighborsFromMatrix n M epsilon p).length) :
    expandVisit n M epsilon minPts p rest s =
      (rest ++ (getNeighborsFromMatrix n M epsilon p).filter
          (fun x => decide (x ∉ s.visited ++ [p])),
        { s with visited := s.visited ++ [p] }) := by
  simp [expandVisit, h, hc]

theorem expandVisit_noncore {n : ℕ} {M : List (List ℚ)} {epsilon : ℚ}
    {minPts p : ℕ} {rest : List ℕ} {s : DbscanState}
    (h : p ∉ s.visited)
    (hc : ¬ minPts ≤ (getNeighborsFromMatrix n M epsilon p).length) :
    expandVisit n M epsilon minPts p rest s =
      (rest, { s with visited := s.visited ++ [p] }) := by
  simp [expandVisit, h, hc]

theorem expandAssign_visited (clusterId : ℤ) (p : ℕ) (s : DbscanState) :
    (expandAssign clusterId p s).visited = s.visited := by
  unfold expandAssign; split <;> rfl

theorem expandAssign_noise (clusterId : ℤ) (p : ℕ) (s : DbscanState) :
    (expandAssign clusterId p s).noise = s.noise := by
  unfold expandAssign; split <;> rfl

theorem expandAssign_length (clusterId : ℤ) (p : ℕ) (s : DbscanState) :
    (expandAssign clusterId p s).assignments.length =
      s.assignments.length := by
  unfold expandAssign; split <;> simp

theorem expandAssign_getD_of_ne {clusterId : ℤ} {p i : ℕ} {s : DbscanState}
    (h : p ≠ i) :
    (expandAssign clusterId p s).assignments.getD i none =
      s.assignments.getD i none := by
  unfold expandAssign
  split
  · exact getD_set_other _ h _ _
  · rfl

theorem expandAssign_getD_some {clusterId : ℤ} {p : ℕ} {s : DbscanState}
    {v : ℤ} (h : s.assignments.getD p none = some v) :
    (expandAssign clusterId p s).assignments.getD p none = some v := by
  unfold expandAssign
  split
  · rename_i hnone; rw [h] at hnone; exact absurd hnone (by simp)
  · exact h

theorem expandLoop_zero (n : ℕ) (M : List (List ℚ)) (epsilon : ℚ)
    (minPts : ℕ) (clusterId : ℤ) (seeds : List ℕ) (s : DbscanState) :
    expandLoop n M epsilon minPts clusterId 0 seeds s = s := by
  cases seeds <;> rfl

theorem expandLoop_nil (n : ℕ) (M : List (List ℚ)) (epsilon : ℚ)
    (minPts : ℕ) (clusterId : ℤ) (fuel : ℕ) (s : DbscanState) :
    expandLoop n M epsilon minPts clusterId fuel [] s = s := by
  cases fuel <;> rfl

theorem expandLoop_cons (n : ℕ) (M : List (List ℚ)) (epsilon : ℚ)
    (minPts : ℕ) (clusterId : ℤ) (fuel p : ℕ) (rest : List ℕ)
    (s : DbscanState) :
    expandLoop n M epsilon minPts clusterId (fuel + 1) (p :: rest) s =
      expandLoop n M epsilon minPts clusterId fuel
        (expandVisit n M epsilon minPts p rest s).1
        (expandAssign clusterId p
          (expandVisit n M epsilon minPts p rest s).2) := rfl

/-! ### The loop measure -/

theorem unvisitedCount_le (n : ℕ) (v : List ℕ) : unvisitedCount n v ≤ n := by
  unfold unvisitedCount
  simpa using List.length_filter_le _ (List.range n)

theorem unvisitedCount_append {n p : ℕ} {v : List ℕ} (hp : p < n)
    (hnv : p ∉ v) :
    unvisitedCount n (v ++ [p]) + 1 = unvisitedCount n v := by
  unfold unvisitedCount
  have key : ∀ l : List ℕ, l.Nodup → p ∈ l →
      ((l.filter (fun x => decide (x ∉ v ++ [p]))).length) + 1 =
        (l.filter (fun x => decide (x ∉ v))).length := by
    intro l
    induction l with
    | nil => intro _ h; exact absurd h (List.not_mem_nil p)
    | cons a l ih =>
      intro hnd hmem
      have hand := (List.nodup_cons.1 hnd).1
      have hnd' := (List.nodup_cons.1 hnd).2
      by_cases hpa : p = a
      · subst hpa
        have h1 : (decide (p ∉ v ++ [p])) = false := by
          simp [List.mem_append]
        have h2 : (decide (p ∉ v)) = true := by simp [hnv]
        rw [List.filter_cons, List.filter_cons, h1, h2]
        simp only [Bool.false_eq_true, if_false, if_true, List.length_cons]
        have heq : l.filter (fun x => decide (x ∉ v ++ [p])) =
            l.filter (fun x => decide (x ∉ v)) := by
          refine List.filter_congr ?_
          intro x hx
          have hxp : x ≠ p := fun h => hand (h ▸ hx)
          simp [List.mem_append, hxp]
        rw [heq]
      · have hpl : p ∈ l := by
          rcases List.mem_cons.1 hmem with h | h
          · exact absurd h hpa
          · exact h
        have hap : a ≠ p := fun h => hpa h.symm
        have heqa : (decide (a ∉ v ++ [p])) = (decide (a ∉ v)) := by
          simp [List.mem_append, hap]
        rw [List.filter_cons, List.filter_cons, heqa]
        by_cases hav : (decide (a ∉ v)) = true
        · rw [hav]
          simp only [if_true, List.length_cons]
          have := ih hnd' hpl
          omega
        · simp only [Bool.not_eq_true] at hav
          rw [hav]
          simp only [Bool.false_eq_true, if_false]
          exact ih hnd' hpl
  exact key (List.range n) (List.nodup_range n) (List.mem_range.2 hp)

/-! ### Simple preservation lemmas for the while-loop -/

theorem expandLoop_visited_mono (n : ℕ) (M : List (List ℚ)) (epsilon : ℚ)
    (minPts : ℕ) (clusterId : ℤ) :
    ∀ fuel seeds (s : DbscanState) x, x ∈ s.visited →
      x ∈ (expandLoop n M epsilon minPts clusterId fuel seeds s).visited := by
  intro fuel
  induction fuel with
  | zero => intro seeds s x hx; rw [expandLoop_zero]; exact hx
  | succ fuel ih =>
    intro seeds s x hx
    cases seeds with
    | nil => rw [expandLoop_nil]; exact hx
    | cons p rest =>
      rw [expandLoop_cons]
      refine ih _ _ x ?_
      rw [expandAssign_visited]
      by_cases hp : p ∈ s.visited
      · rw [expandVisit_of_mem hp]; exact hx
      · by_cases hc : minPts ≤ (getNeighborsFromMatrix n M epsilon p).length
        · rw [expandVisit_core hp hc]
          exact List.mem_append.2 (Or.inl hx)
        · rw [expandVisit_noncore hp hc]
          exact List.mem_append.2 (Or.inl hx)

theorem expandLoop_assign_mono (n : ℕ) (M : List (List ℚ)) (epsilon : ℚ)
    (minPts : ℕ) (clusterId : ℤ) :
    ∀ fuel seeds (s : DbscanState) i v,
      s.assignments.getD i none = some v →
      (expandLoop n M epsilon minPts clusterId fuel seeds s).assignments.getD
        i none = some v := by
  intro fuel
  induction fuel with
  | zero => intro seeds s i v h; rw [expandLoop_zero]; exact h
  | succ fuel ih =>
    intro seeds s i v h
    cases seeds with
    | nil => rw [expandLoop_nil]; exact h
    | cons p rest =>
      rw [expandLoop_cons]
      refine ih _ _ i v ?_
      have hv : (expandVisit n M epsilon minPts p rest s).2.assignments =
          s.assignments := by
        by_cases hp : p ∈ s.visited
        · rw [expandVisit_of_mem hp]
        · by_cases hc : minPts ≤ (getNeighborsFromMatrix n M epsilon p).length
          · rw [expandVisit_core hp hc]
          · rw [expandVisit_noncore hp hc]
      by_cases hpi : p = i
      · subst hpi
        refine expandAssign_getD_some ?_
        rw [hv]; exact h
      · rw [expandAssign_getD_of_ne hpi, hv]; exact h

theorem expandLoop_noise_const (n : ℕ) (M : List (List ℚ)) (epsilon : ℚ)
    (minPts : ℕ) (clusterId : ℤ) :
    ∀ fuel seeds (s : DbscanState),
      (expandLoop n M epsilon minPts clusterId fuel seeds s).noise =
        s.noise := by
  intro fuel
  induction fuel with
  | zero => intro seeds s; rw [expandLoop_zero]
  | succ fuel ih =>
    intro seeds s
    cases seeds with
    | nil => rw [expandLoop_nil]
    | cons p rest =>
      rw [expandLoop_cons, ih, expandAssign_noise]
      by_cases hp : p ∈ s.visited
      · rw [expandVisit_of_mem hp]
      · by_cases hc : minPts ≤ (getNeighborsFromMatrix n M epsilon p).length
        · rw [expandVisit_core hp hc]
        · rw [expandVisit_noncore hp hc]

/-- Generic run lemma for the `expandCluster` while-loop: an invariant `P`
preserved by every dequeue step holds, with an empty queue, at the loop
exit, provided the queue holds only in-range indices and the budget covers
the loop measure.  Because the measure strictly decreases at every step,
the loop always exits by emptying its queue, exactly as the JS `while`
loop does. -/
theorem expandLoop_run (n : ℕ) (M : List (List ℚ)) (epsilon : ℚ)
    (minPts : ℕ) (clusterId : ℤ) (P : List ℕ → DbscanState → Prop)
    (hstep : ∀ p rest (s : DbscanState), p < n → (∀ x ∈ rest, x < n) →
      P (p :: rest) s →
      P (expandVisit n M epsilon minPts p rest s).1
        (expandAssign clusterId p
          (expandVisit n M epsilon minPts p rest s).2)) :
    ∀ fuel seeds (s : DbscanState), (∀ x ∈ seeds, x < n) →
      expandMeasure n seeds s ≤ fuel → P seeds s →
      P [] (expandLoop n M epsilon minPts clusterId fuel seeds s) := by
  intro fuel
  induction fuel with
  | zero =>
    intro seeds s hrange hfuel hP
    have hlen : seeds.length = 0 := by
      have := hfuel
      unfold expandMeasure at this
      omega
    have hnil : seeds = [] := List.length_eq_zero.1 hlen
    subst hnil
    rw [expandLoop_zero]
    exact hP
  | succ fuel ih =>
    intro seeds s hrange hfuel hP
    cases seeds with
    | nil => rw [expandLoop_nil]; exact hP
    | cons p rest =>
      rw [expandLoop_cons]
      have hpn : p < n := hrange p (List.mem_cons_self p rest)
      have hrest : ∀ x ∈ rest, x < n := fun x hx =>
        hrange x (List.mem_cons_of_mem p hx)
      have hP' := hstep p rest s hpn hrest hP
      -- range bound and measure bound for the next iteration
      have hvis : (expandAssign clusterId p
          (expandVisit n M epsilon minPts p rest s).2).visited =
          (expandVisit n M epsilon minPts p rest s).2.visited :=
        expandAssign_visited _ _ _
      by_cases hp : p ∈ s.visited
      · have hev := @expandVisit_of_mem n M epsilon minPts p rest s hp
        refine ih _ _ ?_ ?_ hP'
        · rw [hev]; exact hrest
        · rw [hev] at hvis ⊢
          unfold expandMeasure at hfuel ⊢
          rw [hvis]
          dsimp only at *
          simp only [List.length_cons] at hfuel
          omega
      · have hcu := @unvisitedCount_append n p s.visited hpn hp
        have hmul : n * unvisitedCount n (s.visited ++ [p]) + n =
            n * unvisitedCount n s.visited := by
          rw [← hcu, Nat.mul_add, Nat.mul_one]
        by_cases hc : minPts ≤ (getNeighborsFromMatrix n M epsilon p).length
        · have hev := @expandVisit_core n M epsilon minPts p rest s hp hc
          refine ih _ _ ?_ ?_ hP'
          · rw [hev]
            intro x hx
            dsimp only at hx
            rcases List.mem_append.1 hx with h | h
            · exact hrest x h
            · exact getNeighbors_lt (List.mem_of_mem_filter h)
          · rw [hev] at hvis ⊢
            unfold expandMeasure at hfuel ⊢
            rw [hvis]
            dsimp only at *
            simp only [List.length_cons] at hfuel
            simp only [List.length_append]
            have hpush : ((getNeighborsFromMatrix n M epsilon p).filter
                (fun x => decide (x ∉ s.visited ++ [p]))).length ≤ n :=
              le_trans (List.length_filter_le _ _)
                (length_getNeighbors_le n M epsilon p)
            omega
        · have hev := @expandVisit_noncore n M epsilon minPts p rest s hp hc
          refine ih _ _ ?_ ?_ hP'
          · rw [hev]; exact hrest
          · rw [hev] at hvis ⊢
            unfold expandMeasure at hfuel ⊢
            rw [hvis]
            dsimp only at *
            simp only [List.length_cons] at hfuel
            omega

/-! ### Scan-level rewrite lemmas -/

theorem scanStates_zero (n : ℕ) (M : List (List ℚ)) (epsilon : ℚ)
    (minPts : ℕ) : scanStates n M epsilon minPts 0 = (initState n, 0) := rfl

theorem scanStates_succ (n : ℕ) (M : List (List ℚ)) (epsilon : ℚ)
    (minPts : ℕ) (m : ℕ) :
    scanStates n M epsilon minPts (m + 1) =
      scanStep n M epsilon minPts (scanStates n M epsilon minPts m) m := by
  unfold scanStates
  rw [List.range_succ, List.foldl_append]
  rfl

theorem scanStep_of_mem {n : ℕ} {M : List (List ℚ)} {epsilon : ℚ}
    {minPts : ℕ} {acc : DbscanState × ℤ} {i : ℕ} (h : i ∈ acc.1.visited) :
    scanStep n M epsilon minPts acc i = acc := by
  unfold scanStep
  simp [h]

theorem scanStep_noise {n : ℕ} {M : List (List ℚ)} {epsilon : ℚ}
    {minPts : ℕ} {acc : DbscanState × ℤ} {i : ℕ} (h : i ∉ acc.1.visited)
    (hlen : (getNeighborsFromMatrix n M epsilon i).length < minPts) :
    scanStep n M epsilon minPts acc i =
      ({ visited := acc.1.visited ++ [i], noise := acc.1.noise ++ [i],
         assignments := acc.1.assignments.set i (some (-1)) }, acc.2) := by
  unfold scanStep
  simp [h, hlen]

theorem scanStep_core {n : ℕ} {M : List (List ℚ)} {epsilon : ℚ}
    {minPts : ℕ} {acc : DbscanState × ℤ} {i : ℕ} (h : i ∉ acc.1.visited)
    (hlen : ¬ (getNeighborsFromMatrix n M epsilon i).length < minPts) :
    scanStep n M epsilon minPts acc i =
      (expandCluster n M epsilon minPts i (getNeighborsFromMatrix n M epsilon i)
        acc.2 { acc.1 with visited := acc.1.visited ++ [i] }, acc.2 + 1) := by
  unfold scanStep
  simp [h, hlen]

theorem expandAssign_of_none {clusterId : ℤ} {p : ℕ} {s : DbscanState}
    (h : s.assignments.getD p none = none) :
    expandAssign clusterId p s =
      { s with assignments := s.assignments.set p (some clusterId) } := by
  unfold expandAssign
  rw [if_pos h]

theorem expandAssign_of_assigned {clusterId : ℤ} {p : ℕ} {s : DbscanState}
    (h : s.assignments.getD p none ≠ none) :
    expandAssign clusterId p s = s := by
  unfold expandAssign
  rw [if_neg h]

/-! ### Preservation of the loop invariant -/

theorem loopInv_step (n : ℕ) (M : List (List ℚ)) (epsilon : ℚ)
    (minPts : ℕ) (cid : ℤ) (hcid : 0 ≤ cid) :
    ∀ p rest (s : DbscanState), p < n → (∀ x ∈ rest, x < n) →
      LoopInv n M epsilon minPts cid (p :: rest) s →
      LoopInv n M epsilon minPts cid
        (expandVisit n M epsilon minPts p rest s).1
        (expandAssign cid p (expandVisit n M epsilon minPts p rest s).2) := by
  intro p rest s hpn _ hInv
  obtain ⟨⟨hlen, hvr, hva, hvals, hwit, hnoise⟩, hclosed⟩ := hInv
  by_cases hp : p ∈ s.visited
  · -- already visited: state unchanged, queue shrinks
    rw [expandVisit_of_mem hp]
    have hassigned : s.assignments.getD p none ≠ none := (hva p).1 hp
    rw [expandAssign_of_assigned hassigned]
    refine ⟨⟨hlen, hvr, hva, hvals, hwit, hnoise⟩, ?_⟩
    intro c hcn hcv hcc x hx
    rcases hclosed c hcn hcv hcc x hx with h | h
    · exact Or.inl h
    · rcases List.mem_cons.1 h with rfl | h'
      · exact Or.inl hp
      · exact Or.inr h'
  · -- newly visited
    have hnone : s.assignments.getD p none = none := by
      by_contra hne
      exact hp ((hva p).2 hne)
    have hplen : p < s.assignments.length := by rw [hlen]; exact hpn
    have key : ∀ rest' : List ℕ,
        (∀ c, c < n → c ∈ s.visited →
          minPts ≤ (getNeighborsFromMatrix n M epsilon c).length →
          ∀ x ∈ getNeighborsFromMatrix n M epsilon c,
            x ∈ s.visited ++ [p] ∨ x ∈ rest') →
        (minPts ≤ (getNeighborsFromMatrix n M epsilon p).length →
          ∀ x ∈ getNeighborsFromMatrix n M epsilon p,
            x ∈ s.visited ++ [p] ∨ x ∈ rest') →
        LoopInv n M epsilon minPts cid rest'
          (expandAssign cid p { s with visited := s.visited ++ [p] }) := by
      intro rest' hold hself
      have hnone' : ({ s with visited := s.visited ++ [p] } :
          DbscanState).assignments.getD p none = none := hnone
      rw [expandAssign_of_none hnone']
      refine ⟨⟨?_, ?_, ?_, ?_, ?_, ?_⟩, ?_⟩
      · simpa using hlen
      · intro x hx
        rcases List.mem_append.1 hx with h | h
        · exact hvr x h
        · rw [List.mem_singleton.1 h]; exact hpn
      · intro i
        by_cases hip : i = p
        · subst hip
          constructor
          · intro _
            rw [getD_set_self _ _ _ _ hplen]
            simp
          · intro _
            exact List.mem_append.2 (Or.inr (List.mem_singleton.2 rfl))
        · have heq : (s.assignments.set p (some cid)).getD i none =
              s.assignments.getD i none :=
            getD_set_other _ (fun h => hip h.symm) _ _
          simp only [heq]
          constructor
          · intro hx
            rcases List.mem_append.1 hx with h | h
            · exact (hva i).1 h
            · exact absurd (List.mem_singleton.1 h) hip
          · intro hx
            exact List.mem_append.2 (Or.inl ((hva i).2 hx))
      · intro i v hv
        by_cases hip : i = p
        · subst hip
          rw [getD_set_self _ _ _ _ hplen] at hv
          have hveq : cid = v := by simpa using hv
          subst hveq
          exact Or.inr ⟨hcid, by omega⟩
        · rw [getD_set_other _ (fun h => hip h.symm) _ _] at hv
          exact hvals i v hv
      · intro k hk0 hk1
        by_cases hkc : k = cid
        · subst hkc
          exact ⟨p, hpn, getD_set_self _ _ _ _ hplen⟩
        · obtain ⟨i, hin, hia⟩ := hwit k hk0 hk1
          have hip : i ≠ p := by
            intro h
            rw [h, hnone] at hia
            exact absurd hia (by simp)
          refine ⟨i, hin, ?_⟩
          rw [getD_set_other _ (fun h => hip h.symm) _ _]
          exact hia
      · intro i
        by_cases hip : i = p
        · subst hip
          rw [getD_set_self _ _ _ _ hplen]
          constructor
          · intro hx
            have hcontra := (hnoise i).1 hx
            rw [hnone] at hcontra
            exact absurd hcontra (by simp)
          · intro h
            have hceq : cid = -1 := by simpa using h
            omega
        · rw [getD_set_other _ (fun h => hip h.symm) _ _]
          exact hnoise i
      · intro c hcn hcv hcc x hx
        rcases List.mem_append.1 hcv with h | h
        · exact hold c hcn h hcc x hx
        · rw [List.mem_singleton.1 h] at hcc hx
          exact hself hcc x hx
    by_cases hc : minPts ≤ (getNeighborsFromMatrix n M epsilon p).length
    · rw [expandVisit_core hp hc]
      refine key _ ?_ ?_
      · intro c hcn hcv hcc x hx
        rcases hclosed c hcn hcv hcc x hx with h | h
        · exact Or.inl (List.mem_append.2 (Or.inl h))
        · rcases List.mem_cons.1 h with rfl | h'
          · exact Or.inl (List.mem_append.2 (Or.inr (List.mem_singleton.2 rfl)))
          · exact Or.inr (List.mem_append.2 (Or.inl h'))
      · intro _ x hx
        by_cases hxv : x ∈ s.visited ++ [p]
        · exact Or.inl hxv
        · refine Or.inr (List.mem_append.2 (Or.inr ?_))
          refine List.mem_filter.2 ⟨hx, ?_⟩
          simpa using hxv
    · rw [expandVisit_noncore hp hc]
      refine key _ ?_ ?_
      · intro c hcn hcv hcc x hx
        rcases hclosed c hcn hcv hcc x hx with h | h
        · exact Or.inl (List.mem_append.2 (Or.inl h))
        · rcases List.mem_cons.1 h with rfl | h'
          · exact Or.inl (List.mem_append.2 (Or.inr (List.mem_singleton.2 rfl)))
          · exact Or.inr h'
      · intro hcc
        exact absurd hcc hc

/-- Entering `expandCluster` at an unvisited root `p` with current id `cid`
turns a well-formed state with bound `cid` into one with bound `cid + 1`:
the root is marked visited and becomes the first member of cluster `cid`. -/
theorem stateWF_expand_entry (n : ℕ) (cid : ℤ) (p : ℕ) (s : DbscanState)
    (hpn : p < n) (hcid : 0 ≤ cid) (hwf : StateWF n cid s)
    (hp : p ∉ s.visited) :
    StateWF n (cid + 1)
      { s with visited := s.visited ++ [p],
               assignments := s.assignments.set p (some cid) } := by
  obtain ⟨hlen, hvr, hva, hvals, hwit, hnoise⟩ := hwf
  have hnone : s.assignments.getD p none = none := by
    by_contra hne
    exact hp ((hva p).2 hne)
  have hplen : p < s.assignments.length := by rw [hlen]; exact hpn
  refine ⟨?_, ?_, ?_, ?_, ?_, ?_⟩
  · simpa using hlen
  · intro x hx
    rcases List.mem_append.1 hx with h | h
    · exact hvr x h
    · rw [List.mem_singleton.1 h]; exact hpn
  · intro i
    by_cases hip : i = p
    · subst hip
      constructor
      · intro _
        rw [getD_set_self _ _ _ _ hplen]
        simp
      · intro _
        exact List.mem_append.2 (Or.inr (List.mem_singleton.2 rfl))
    · have heq : (s.assignments.set p (some cid)).getD i none =
          s.assignments.getD i none :=
        getD_set_other _ (fun h => hip h.symm) _ _
      simp only [heq]
      constructor
      · intro hx
        rcases List.mem_append.1 hx with h | h
        · exact (hva i).1 h
        · exact absurd (List.mem_singleton.1 h) hip
      · intro hx
        exact List.mem_append.2 (Or.inl ((hva i).2 hx))
  · intro i v hv
    by_cases hip : i = p
    · subst hip
      rw [getD_set_self _ _ _ _ hplen] at hv
      have hveq : cid = v := by simpa using hv
      subst hveq
      exact Or.inr ⟨hcid, by omega⟩
    · rw [getD_set_other _ (fun h => hip h.symm) _ _] at hv
      rcases hvals i v hv with h | h
      · exact Or.inl h
      · exact Or.inr ⟨h.1, by omega⟩
  · intro k hk0 hk1
    by_cases hkc : k = cid
    · subst hkc
      exact ⟨p, hpn, getD_set_self _ _ _ _ hplen⟩
    · have hklt : k < cid := by omega
      obtain ⟨i, hin, hia⟩ := hwit k hk0 hklt
      have hip : i ≠ p := by
        intro h
        rw [h, hnone] at hia
        exact absurd hia (by simp)
      refine ⟨i, hin, ?_⟩
      rw [getD_set_other _ (fun h => hip h.symm) _ _]
      exact hia
  · intro i
    by_cases hip : i = p
    · subst hip
      rw [getD_set_self _ _ _ _ hplen]
      constructor
      · intro hx
        have hcontra := (hnoise i).1 hx
        rw [hnone] at hcontra
        exact absurd hcontra (by simp)
      · intro h
        have hceq : cid = -1 := by simpa using h
        omega
    · rw [getD_set_other _ (fun h => hip h.symm) _ _]
      exact hnoise i

/-- Running `expandCluster` from a well-formed closed state at an unvisited
core root preserves well-formedness (with the bound advanced past the new
cluster id) and closure of the visited set. -/
theorem expandCluster_inv (n : ℕ) (M : List (List ℚ)) (epsilon : ℚ)
    (minPts : ℕ) (p : ℕ) (cid : ℤ) (s : DbscanState) (hpn : p < n)
    (hcid : 0 ≤ cid) (hwf : StateWF n cid s)
    (hclosed : ClosedQ n M epsilon minPts [] s) (hp : p ∉ s.visited) :
    LoopInv n M epsilon minPts cid []
      (expandCluster n M epsilon minPts p
        (getNeighborsFromMatrix n M epsilon p) cid
        { s with visited := s.visited ++ [p] }) := by
  unfold expandCluster
  refine expandLoop_run n M epsilon minPts cid
    (LoopInv n M epsilon minPts cid) (loopInv_step n M epsilon minPts cid hcid)
    _ _ _ (fun x hx => getNeighbors_lt hx) ?_ ?_
  · unfold expandMeasure
    dsimp only
    have hcu := unvisitedCount_le n (s.visited ++ [p])
    have hmul := Nat.mul_le_mul_left n hcu
    omega
  · constructor
    · exact stateWF_expand_entry n cid p s hpn hcid hwf hp
    · intro c hcn hcv hcc x hx
      dsimp only at hcv
      rcases List.mem_append.1 hcv with h | h
      · rcases hclosed c hcn h hcc x hx with hv | hv
        · exact Or.inl (List.mem_append.2 (Or.inl hv))
        · exact absurd hv (List.not_mem_nil x)
      · rw [List.mem_singleton.1 h] at hx
        exact Or.inr hx

/-- The noise branch of the outer scan (`noise.add(i); assignments[i] = -1`)
preserves well-formedness of the state. -/
theorem stateWF_noise_entry (n : ℕ) (cid : ℤ) (p : ℕ) (s : DbscanState)
    (hpn : p < n) (hwf : StateWF n cid s) (hp : p ∉ s.visited) :
    StateWF n cid
      { visited := s.visited ++ [p], noise := s.noise ++ [p],
        assignments := s.assignments.set p (some (-1)) } := by
  obtain ⟨hlen, hvr, hva, hvals, hwit, hnoise⟩ := hwf
  have hnone : s.assignments.getD p none = none := by
    by_contra hne
    exact hp ((hva p).2 hne)
  have hplen : p < s.assignments.length := by rw [hlen]; exact hpn
  refine ⟨?_, ?_, ?_, ?_, ?_, ?_⟩
  · simpa using hlen
  · intro x hx
    rcases List.mem_append.1 hx with h | h
    · exact hvr x h
    · rw [List.mem_singleton.1 h]; exact hpn
  · intro i
    by_cases hip : i = p
    · subst hip
      constructor
      · intro _
        rw [getD_set_self _ _ _ _ hplen]
        simp
      · intro _
        exact List.mem_append.2 (Or.inr (List.mem_singleton.2 rfl))
    · have heq : (s.assignments.set p (some (-1))).getD i none =
          s.assignments.getD i none :=
        getD_set_other _ (fun h => hip h.symm) _ _
      simp only [heq]
      constructor
      · intro hx
        rcases List.mem_append.1 hx with h | h
        · exact (hva i).1 h
        · exact absurd (List.mem_singleton.1 h) hip
      · intro hx
        exact List.mem_append.2 (Or.inl ((hva i).2 hx))
  · intro i v hv
    by_cases hip : i = p
    · subst hip
      rw [getD_set_self _ _ _ _ hplen] at hv
      have hveq : (-1 : ℤ) = v := by simpa using hv
      exact Or.inl hveq.symm
    · rw [getD_set_other _ (fun h => hip h.symm) _ _] at hv
      exact hvals i v hv
  · intro k hk0 hk1
    obtain ⟨i, hin, hia⟩ := hwit k hk0 hk1
    have hip : i ≠ p := by
      intro h
      rw [h, hnone] at hia
      exact absurd hia (by simp)
    refine ⟨i, hin, ?_⟩
    rw [getD_set_other _ (fun h => hip h.symm) _ _]
    exact hia
  · intro i
    by_cases hip : i = p
    · subst hip
      rw [getD_set_self _ _ _ _ hplen]
      constructor
      · intro _; rfl
      · intro _
        exact List.mem_append.2 (Or.inr (List.mem_singleton.2 rfl))
    · rw [getD_set_other _ (fun h => hip h.symm) _ _]
      constructor
      · intro hx
        rcases List.mem_append.1 hx with h | h
        · exact (hnoise i).1 h
        · exact absurd (List.mem_singleton.1 h) hip
      · intro hx
        exact List.mem_append.2 (Or.inl ((hnoise i).2 hx))

theorem expandCluster_visited_mono (n : ℕ) (M : List (List ℚ))
    (epsilon : ℚ) (minPts p : ℕ) (neighbors : List ℕ) (cid : ℤ)
    (s : DbscanState) (x : ℕ) (hx : x ∈ s.visited) :
    x ∈ (expandCluster n M epsilon minPts p neighbors cid s).visited := by
  unfold expandCluster
  exact expandLoop_visited_mono n M epsilon minPts cid _ _ _ x hx

theorem expandCluster_noise_const (n : ℕ) (M : List (List ℚ))
    (epsilon : ℚ) (minPts p : ℕ) (neighbors : List ℕ) (cid : ℤ)
    (s : DbscanState) :
    (expandCluster n M epsilon minPts p neighbors cid s).noise = s.noise := by
  unfold expandCluster
  exact expandLoop_noise_const n M epsilon minPts cid _ _ _

theorem expandCluster_assign_mono (n : ℕ) (M : List (List ℚ))
    (epsilon : ℚ) (minPts p : ℕ) (neighbors : List ℕ) (cid : ℤ)
    (s : DbscanState) (i : ℕ) (v : ℤ)
    (hnone : s.assignments.getD p none = none)
    (hv : s.assignments.getD i none = some v) :
    (expandCluster n M epsilon minPts p neighbors cid
      s).assignments.getD i none = some v := by
  unfold expandCluster
  refine expandLoop_assign_mono n M epsilon minPts cid _ _ _ i v ?_
  have hip : i ≠ p := by
    intro h
    rw [h, hnone] at hv
    exact absurd hv (by simp)
  dsimp only
  rw [getD_set_other _ (fun h => hip h.symm) _ _]
  exact hv

/-- The master invariant of the outer scan: after processing indices
`0, …, m-1` (for `m ≤ n`), the state is well-formed, all processed indices
are visited, and the visited set is closed under neighborhoods of visited
core points. -/
theorem scanInv_holds (n : ℕ) (M : List (List ℚ)) (epsilon : ℚ)
    (minPts : ℕ) :
    ∀ m, m ≤ n →
      ScanInv n M epsilon minPts m (scanStates n M epsilon minPts m).1
        (scanStates n M epsilon minPts m).2 := by
  intro m
  induction m with
  | zero =>
    intro _
    rw [scanStates_zero]
    refine ⟨⟨?_, ?_, ?_, ?_, ?_, ?_⟩, le_refl 0, ?_, ?_⟩
    · simp [initState]
    · intro x hx; exact absurd hx (List.not_mem_nil x)
    · intro i
      unfold initState
      simp [getD_replicate_none]
    · intro i v hv
      unfold initState at hv
      rw [getD_replicate_none] at hv
      exact absurd hv (by simp)
    · intro k hk0 hk1
      omega
    · intro i
      unfold initState
      simp [getD_replicate_none]
    · intro j hj
      omega
    · intro c _ hcv
      exact absurd hcv (List.not_mem_nil c)
  | succ m ih =>
    intro hm1
    have hmn : m < n := hm1
    obtain ⟨hwf, hcid, hproc, hclosed⟩ := ih (le_of_lt hmn)
    rw [scanStates_succ]
    by_cases hv : m ∈ (scanStates n M epsilon minPts m).1.visited
    · rw [scanStep_of_mem hv]
      refine ⟨hwf, hcid, ?_, hclosed⟩
      intro j hj
      by_cases hjm : j = m
      · subst hjm; exact hv
      · exact hproc j (by omega)
    · by_cases hlen : (getNeighborsFromMatrix n M epsilon m).length < minPts
      · rw [scanStep_noise hv hlen]
        refine ⟨stateWF_noise_entry n _ m _ hmn hwf hv, hcid, ?_, ?_⟩
        · intro j hj
          by_cases hjm : j = m
          · subst hjm
            exact List.mem_append.2 (Or.inr (List.mem_singleton.2 rfl))
          · exact List.mem_append.2 (Or.inl (hproc j (by omega)))
        · intro c hcn hcv hcc x hx
          dsimp only at hcv
          rcases List.mem_append.1 hcv with h | h
          · rcases hclosed c hcn h hcc x hx with h' | h'
            · exact Or.inl (List.mem_append.2 (Or.inl h'))
            · exact absurd h' (List.not_mem_nil x)
          · rw [List.mem_singleton.1 h] at hcc
            exact absurd hcc (by omega)
      · rw [scanStep_core hv hlen]
        have hloop := expandCluster_inv n M epsilon minPts m
          (scanStates n M epsilon minPts m).2
          (scanStates n M epsilon minPts m).1 hmn hcid hwf hclosed hv
        obtain ⟨hwf', hclosed'⟩ := hloop
        refine ⟨hwf', by omega, ?_, hclosed'⟩
        intro j hj
        refine expandCluster_visited_mono n M epsilon minPts m _ _ _ j ?_
        dsimp only
        by_cases hjm : j = m
        · subst hjm
          exact List.mem_append.2 (Or.inr (List.mem_singleton.2 rfl))
        · exact List.mem_append.2 (Or.inl (hproc j (by omega)))

/-! ### Characterization of the final grouping -/

theorem mem_list_iff_getD {α : Type} (l : List α) (d : α) (c : α) :
    c ∈ l ↔ ∃ k, k < l.length ∧ l.getD k d = c := by
  constructor
  · intro h
    obtain ⟨k, hk, he⟩ := List.mem_iff_getElem.1 h
    exact ⟨k, hk, by rw [List.getD_eq_getElem l d hk]; exact he⟩
  · rintro ⟨k, hk, he⟩
    rw [List.getD_eq_getElem l d hk] at he
    rw [← he]
    exact List.getElem_mem hk

theorem buildStep_none {a : List (Option ℤ)} {i : ℕ}
    (h : a.getD i none = none) (cl : List (List ℕ)) :
    buildStep a cl i = cl := by
  unfold buildStep
  rw [h]

theorem buildStep_neg {a : List (Option ℤ)} {i : ℕ} {v : ℤ}
    (h : a.getD i none = some v) (h0 : ¬ (0 : ℤ) ≤ v)
    (cl : List (List ℕ)) : buildStep a cl i = cl := by
  unfold buildStep
  rw [h]
  exact if_neg h0

theorem buildStep_pos {a : List (Option ℤ)} {i : ℕ} {v : ℤ}
    (h : a.getD i none = some v) (h0 : (0 : ℤ) ≤ v)
    (cl : List (List ℕ)) :
    buildStep a cl i = cl.set v.toNat (cl.getD v.toNat [] ++ [i]) := by
  unfold buildStep
  rw [h]
  exact if_pos h0

/-- Prefix characterization of the grouping fold of `dbscan`: after
processing indices `0, …, m-1`, bucket `k` holds, in ascending order,
exactly the processed indices assigned to cluster `k`. -/
theorem buildClusters_fold (a : List (Option ℤ)) (clusterCount : ℕ)
    (hv : ∀ i v, a.getD i none = some v → 0 ≤ v → v.toNat < clusterCount) :
    ∀ m,
      ((List.range m).foldl (buildStep a)
        (List.replicate clusterCount [])).length = clusterCount ∧
      ∀ k, k < clusterCount →
        ((List.range m).foldl (buildStep a)
          (List.replicate clusterCount [])).getD k [] =
          (List.range m).filter
            (fun i => decide (a.getD i none = some ((k : ℕ) : ℤ))) := by
  intro m
  induction m with
  | zero =>
    constructor
    · simp
    · intro k _
      simp only [List.range_zero, List.foldl_nil, List.filter_nil]
      rw [getD_replicate_none]
  | succ m ih =>
    obtain ⟨ihlen, ihget⟩ := ih
    rw [List.range_succ, List.foldl_append]
    simp only [List.foldl_cons, List.foldl_nil]
    have hfilter : ∀ k : ℕ, (List.range m ++ [m]).filter
        (fun i => decide (a.getD i none = some ((k : ℕ) : ℤ))) =
        (List.range m).filter
          (fun i => decide (a.getD i none = some ((k : ℕ) : ℤ))) ++
        (if a.getD m none = some ((k : ℕ) : ℤ) then [m] else []) := by
      intro k
      rw [List.filter_append, List.filter_singleton]
      by_cases h : a.getD m none = some ((k : ℕ) : ℤ)
      · rw [if_pos h, decide_eq_true h]
        rfl
      · rw [if_neg h, decide_eq_false h]
        rfl
    cases hma : a.getD m none with
    | none =>
      rw [buildStep_none hma]
      refine ⟨ihlen, ?_⟩
      intro k hk
      rw [ihget k hk, hfilter k, hma]
      simp
    | some v =>
      by_cases h0 : (0 : ℤ) ≤ v
      · rw [buildStep_pos hma h0]
        have hvk : v.toNat < clusterCount := hv m v hma h0
        refine ⟨by rw [List.length_set]; exact ihlen, ?_⟩
        intro k hk
        by_cases hkv : k = v.toNat
        · subst hkv
          have hcast : ((v.toNat : ℕ) : ℤ) = v := Int.toNat_of_nonneg h0
          rw [getD_set_self _ _ _ _ (by rw [ihlen]; exact hvk),
            ihget _ hk, hfilter _, hma, hcast]
          simp
        · have hne : a.getD m none ≠ some ((k : ℕ) : ℤ) := by
            rw [hma]
            intro hcontra
            have hceq : v = ((k : ℕ) : ℤ) := by simpa using hcontra
            apply hkv
            omega
          rw [getD_set_other _ (fun h => hkv h.symm) _ _, ihget k hk,
            hfilter k, if_neg hne]
          simp
      · rw [buildStep_neg hma h0]
        refine ⟨ihlen, ?_⟩
        intro k hk
        have hne : a.getD m none ≠ some ((k : ℕ) : ℤ) := by
          rw [hma]
          intro hcontra
          have hceq : v = ((k : ℕ) : ℤ) := by simpa using hcontra
          omega
        rw [ihget k hk, hfilter k, if_neg hne]
        simp

theorem buildClusters_length (a : List (Option ℤ)) (clusterCount : ℕ)
    (hv : ∀ i v, a.getD i none = some v → 0 ≤ v → v.toNat < clusterCount) :
    (buildClusters clusterCount a).length = clusterCount :=
  (buildClusters_fold a clusterCount hv a.length).1

theorem buildClusters_getD (a : List (Option ℤ)) (clusterCount : ℕ)
    (hv : ∀ i v, a.getD i none = some v → 0 ≤ v → v.toNat < clusterCount)
    (k : ℕ) (hk : k < clusterCount) :
    (buildClusters clusterCount a).getD k [] =
      (List.range a.length).filter
        (fun i => decide (a.getD i none = some ((k : ℕ) : ℤ))) :=
  (buildClusters_fold a clusterCount hv a.length).2 k hk

theorem mem_buildClusters_getD (a : List (Option ℤ)) (clusterCount : ℕ)
    (hv : ∀ i v, a.getD i none = some v → 0 ≤ v → v.toNat < clusterCount)
    (k : ℕ) (hk : k < clusterCount) (i : ℕ) :
    i ∈ (buildClusters clusterCount a).getD k [] ↔
      i < a.length ∧ a.getD i none = some ((k : ℕ) : ℤ) := by
  rw [buildClusters_getD a clusterCount hv k hk]
  simp [List.mem_filter, List.mem_range]

/-! ### Consequences for the completed run -/

theorem dbscanScan_inv (n : ℕ) (M : List (List ℚ)) (epsilon : ℚ)
    (minPts : ℕ) :
    ScanInv n M epsilon minPts n (dbscanScan n M epsilon minPts).1
      (dbscanScan n M epsilon minPts).2 :=
  scanInv_holds n M epsilon minPts n (le_refl n)

theorem dbscanScan_assign_length (n : ℕ) (M : List (List ℚ)) (epsilon : ℚ)
    (minPts : ℕ) :
    (dbscanScan n M epsilon minPts).1.assignments.length = n :=
  (dbscanScan_inv n M epsilon minPts).1.1

theorem dbscanScan_total (n : ℕ) (M : List (List ℚ)) (epsilon : ℚ)
    (minPts : ℕ) (i : ℕ) (hi : i < n) :
    (dbscanScan n M epsilon minPts).1.assignments.getD i none ≠ none := by
  obtain ⟨⟨_, _, hva, _, _, _⟩, _, hproc, _⟩ := dbscanScan_inv n M epsilon minPts
  exact (hva i).1 (hproc i hi)

theorem dbscanScan_assign_lt (n : ℕ) (M : List (List ℚ)) (epsilon : ℚ)
    (minPts : ℕ) (i : ℕ) (v : ℤ)
    (hv : (dbscanScan n M epsilon minPts).1.assignments.getD i none = some v)
    (h0 : 0 ≤ v) :
    v.toNat < (dbscanScan n M epsilon minPts).2.toNat := by
  obtain ⟨⟨_, _, _, hvals, _, _⟩, _, _, _⟩ := dbscanScan_inv n M epsilon minPts
  rcases hvals i v hv with h | h
  · omega
  · omega

theorem dbscanScan_assign_lt_range (n : ℕ) (M : List (List ℚ))
    (epsilon : ℚ) (minPts : ℕ) (i : ℕ) (v : ℤ)
    (hv : (dbscanScan n M epsilon minPts).1.assignments.getD i none =
      some v) : i < n := by
  obtain ⟨⟨_, hvr, hva, _, _, _⟩, _, _, _⟩ := dbscanScan_inv n M epsilon minPts
  refine hvr i ((hva i).2 ?_)
  rw [hv]
  simp

theorem dbscan_clusters_length (n : ℕ) (M : List (List ℚ)) (epsilon : ℚ)
    (minPts : ℕ) :
    (dbscanFromMatrix n M epsilon minPts).clusters.length =
      (dbscanScan n M epsilon minPts).2.toNat := by
  unfold dbscanFromMatrix
  exact buildClusters_length _ _ (dbscanScan_assign_lt n M epsilon minPts)

theorem dbscan_mem_cluster_getD (n : ℕ) (M : List (List ℚ)) (epsilon : ℚ)
    (minPts : ℕ) (k : ℕ) (hk : k < (dbscanScan n M epsilon minPts).2.toNat)
    (i : ℕ) :
    i ∈ (dbscanFromMatrix n M epsilon minPts).clusters.getD k [] ↔
      (i < n ∧ (dbscanScan n M epsilon minPts).1.assignments.getD i none =
        some ((k : ℕ) : ℤ)) := by
  unfold dbscanFromMatrix
  rw [mem_buildClusters_getD _ _ (dbscanScan_assign_lt n M epsilon minPts)
    k hk i, dbscanScan_assign_length]

theorem dbscan_noise_iff (n : ℕ) (M : List (List ℚ)) (epsilon : ℚ)
    (minPts : ℕ) (i : ℕ) :
    i ∈ (dbscanFromMatrix n M epsilon minPts).noise ↔
      (dbscanScan n M epsilon minPts).1.assignments.getD i none =
        some (-1) := by
  obtain ⟨⟨_, _, _, _, _, hnoise⟩, _, _, _⟩ := dbscanScan_inv n M epsilon minPts
  exact hnoise i

theorem dbscan_exists_cluster_iff (n : ℕ) (M : List (List ℚ)) (epsilon : ℚ)
    (minPts : ℕ) (i : ℕ) :
    (∃ c ∈ (dbscanFromMatrix n M epsilon minPts).clusters, i ∈ c) ↔
      ∃ v : ℤ, 0 ≤ v ∧
        (dbscanScan n M epsilon minPts).1.assignments.getD i none =
          some v := by
  constructor
  · rintro ⟨c, hc, hic⟩
    obtain ⟨k, hk, he⟩ := (mem_list_iff_getD _ ([] : List ℕ) c).1 hc
    rw [dbscan_clusters_length] at hk
    rw [← he] at hic
    have := (dbscan_mem_cluster_getD n M epsilon minPts k hk i).1 hic
    exact ⟨((k : ℕ) : ℤ), by omega, this.2⟩
  · rintro ⟨v, h0, hv⟩
    have hk := dbscanScan_assign_lt n M epsilon minPts i v hv h0
    have hin := dbscanScan_assign_lt_range n M epsilon minPts i v hv
    refine ⟨(dbscanFromMatrix n M epsilon minPts).clusters.getD v.toNat [],
      ?_, ?_⟩
    · refine (mem_list_iff_getD _ ([] : List ℕ) _).2 ⟨v.toNat, ?_, rfl⟩
      rw [dbscan_clusters_length]
      exact hk
    · refine (dbscan_mem_cluster_getD n M epsilon minPts v.toNat hk i).2
        ⟨hin, ?_⟩
      rw [hv]
      congr 1
      omega

/-! ### Dot-product symmetry -/

theorem foldl_add_congr {α : Type} (l : List α) (f g : α → ℚ)
    (h : ∀ x ∈ l, f x = g x) :
    ∀ acc : ℚ,
      l.foldl (fun d x => d + f x) acc = l.foldl (fun d x => d + g x) acc := by
  induction l with
  | nil => intro _; rfl
  | cons a l ih =>
    intro acc
    simp only [List.foldl_cons]
    rw [h a (List.mem_cons_self a l)]
    exact ih (fun x hx => h x (List.mem_cons_of_mem a hx)) _

theorem vectorSimilarity_comm (v w : List ℚ) (h : v.length = w.length) :
    vectorSimilarity v w = vectorSimilarity w v := by
  unfold vectorSimilarity
  rw [h]
  exact foldl_add_congr (List.range w.length) _ _
    (fun i _ => mul_comm (v.getD i 0) (w.getD i 0)) 0

theorem getD_map_range {α : Type} (N : ℕ) (f : ℕ → α) (i : ℕ) (hi : i < N)
    (d : α) : ((List.range N).map f).getD i d = f i := by
  rw [List.getD_eq_getElem _ d (by simpa using hi)]
  simp

theorem cpu_entry (points : List (List ℚ)) (i j : ℕ)
    (hi : i < points.length) (hj : j < points.length) :
    matrixEntry (computeDistanceMatrixCPU points) i j =
      vectorSimilarity (points.getD i []) (points.getD j []) := by
  unfold matrixEntry computeDistanceMatrixCPU
  rw [getD_map_range _ _ i hi, getD_map_range _ _ j hj]

theorem getD_mem_of_lt {α : Type} (l : List α) (i : ℕ) (d : α)
    (hi : i < l.length) : l.getD i d ∈ l := by
  rw [List.getD_eq_getElem l d hi]
  exact List.getElem_mem hi

/-! ### Claim theorems -/

/-- C4: for every index `i`, `getNeighborsFromMatrix(i)` is exactly the set
of indices `j < n` with `similarity[i][j] >= epsilon`, listed in ascending
index order; whenever the diagonal entry `similarity[i][i]` is at least the
threshold, `i` belongs to its own neighbor set, so the count compared
against `minPts` is self-inclusive. -/
theorem getNeighbors_spec (n : ℕ) (M : List (List ℚ)) (epsilon : ℚ)
    (i : ℕ) :
    (∀ j, j ∈ getNeighborsFromMatrix n M epsilon i ↔
      (j < n ∧ epsilon ≤ matrixEntry M i j)) ∧
    List.Pairwise (· < ·) (getNeighborsFromMatrix n M epsilon i) ∧
    (i < n → epsilon ≤ matrixEntry M i i →
      i ∈ getNeighborsFromMatrix n M epsilon i) := by
  refine ⟨fun j => mem_getNeighbors, ?_, ?_⟩
  · exact List.Pairwise.sublist (List.filter_sublist _)
      (List.pairwise_lt_range n)
  · intro hin hdiag
    exact mem_getNeighbors.2 ⟨hin, hdiag⟩

/-- Witness for C4 at a concrete input: index 0 of `exChain` is a member of
its own neighbor set at threshold 0.85. -/
theorem getNeighbors_spec_witness :
    0 ∈ getNeighborsFromMatrix 3 exChain (mkRat 85 100) 0 :=
  (getNeighbors_spec 3 exChain (mkRat 85 100) 0).2.2 (by decide) (by decide)

/-- C5: `computeDistanceMatrix` recovers from any failure of the
accelerated attempt by recomputing the matrix with the sequential strategy
`computeDistanceMatrixCPU`; it also takes the sequential path when the
accelerated path is not requested (`useGPU = false`) or not available
(`'gpu' ∉ navigator`).  The embedding returns a matrix in every case — the
caller never observes the accelerated failure as an error — and the last
conjunct shows every result is either the sequential matrix or a
successfully computed accelerated matrix. -/
theorem gpu_fallback_policy :
    (∀ (points : List (List ℚ)) (g : Bool)
      (a : Except String (List (List ℚ))),
      computeDistanceMatrix points false g a =
        computeDistanceMatrixCPU points) ∧
    (∀ (points : List (List ℚ)) (u : Bool)
      (a : Except String (List (List ℚ))),
      computeDistanceMatrix points u false a =
        computeDistanceMatrixCPU points) ∧
    (∀ (points : List (List ℚ)) (u g : Bool) (e : String),
      computeDistanceMatrix points u g (Except.error e) =
        computeDistanceMatrixCPU points) ∧
    (∀ (points : List (List ℚ)) (u g : Bool)
      (a : Except String (List (List ℚ))),
      computeDistanceMatrix points u g a = computeDistanceMatrixCPU points ∨
      ∃ m, a = Except.ok m ∧ computeDistanceMatrix points u g a = m) := by
  refine ⟨?_, ?_, ?_, ?_⟩
  · intro points g a
    rfl
  · intro points u a
    cases u <;> rfl
  · intro points u g e
    cases u <;> cases g <;> rfl
  · intro points u g a
    cases u with
    | false => exact Or.inl rfl
    | true =>
      cases g with
      | false => exact Or.inl rfl
      | true =>
        cases a with
        | error e => exact Or.inl rfl
        | ok m => exact Or.inr ⟨m, rfl, rfl⟩

/-- C6: the sequential strategy returns an N×N matrix whose entry `(i, j)`
is `vectorSimilarity(points[i], points[j])`, and (for inputs of uniform
dimensionality, the engine's input constraint) this matrix is symmetric;
for N = 1 it is the 1×1 matrix of the self dot product as a special case. -/
theorem cpu_matrix_spec (points : List (List ℚ)) (D : ℕ)
    (hD : ∀ v ∈ points, v.length = D) :
    (computeDistanceMatrixCPU points).length = points.length ∧
    (∀ i, i < points.length →
      ((computeDistanceMatrixCPU points).getD i []).length =
        points.length) ∧
    (∀ i j, i < points.length → j < points.length →
      matrixEntry (computeDistanceMatrixCPU points) i j =
        vectorSimilarity (points.getD i []) (points.getD j [])) ∧
    (∀ i j, i < points.length → j < points.length →
      matrixEntry (computeDistanceMatrixCPU points) i j =
        matrixEntry (computeDistanceMatrixCPU points) j i) := by
  refine ⟨by simp [computeDistanceMatrixCPU], ?_, ?_, ?_⟩
  · intro i hi
    unfold computeDistanceMatrixCPU
    rw [getD_map_range _ _ i hi]
    simp
  · intro i j hi hj
    exact cpu_entry points i j hi hj
  · intro i j hi hj
    rw [cpu_entry points i j hi hj, cpu_entry points j i hj hi]
    refine vectorSimilarity_comm _ _ ?_
    rw [hD _ (getD_mem_of_lt points i [] hi),
      hD _ (getD_mem_of_lt points j [] hj)]

/-- Witness for C6 at a concrete input: the 2×2 identity-like matrix over
two orthonormal 2-dimensional vectors. -/
theorem cpu_matrix_spec_witness :
    (computeDistanceMatrixCPU [[1, 0], [0, 1]]).length = 2 ∧
    (∀ i, i < ([[1, 0], [0, 1]] : List (List ℚ)).length →
      ((computeDistanceMatrixCPU [[1, 0], [0, 1]]).getD i []).length =
        ([[1, 0], [0, 1]] : List (List ℚ)).length) ∧
    (∀ i j, i < ([[1, 0], [0, 1]] : List (List ℚ)).length →
      j < ([[1, 0], [0, 1]] : List (List ℚ)).length →
      matrixEntry (computeDistanceMatrixCPU [[1, 0], [0, 1]]) i j =
        vectorSimilarity (([[1, 0], [0, 1]] : List (List ℚ)).getD i [])
          (([[1, 0], [0, 1]] : List (List ℚ)).getD j [])) ∧
    (∀ i j, i < ([[1, 0], [0, 1]] : List (List ℚ)).length →
      j < ([[1, 0], [0, 1]] : List (List ℚ)).length →
      matrixEntry (computeDistanceMatrixCPU [[1, 0], [0, 1]]) i j =
        matrixEntry (computeDistanceMatrixCPU [[1, 0], [0, 1]]) j i) := by
  have h := cpu_matrix_spec [[1, 0], [0, 1]] 2 (by decide)
  simpa using h

/-- C7: `dbscan` is deterministic — two runs on the identical similarity
matrix, threshold and `minPts` produce identical results (same cluster ids
in the same discovery order, same membership, same noise set).  In the
embedding the outer scan is a fold over `0, …, n-1` in ascending order and
the queue is a FIFO list, so the whole run is a pure function of its
inputs. -/
theorem dbscan_deterministic (n : ℕ) (M M' : List (List ℚ))
    (epsilon epsilon' : ℚ) (minPts minPts' : ℕ)
    (hM : M = M') (he : epsilon = epsilon') (hm : minPts = minPts') :
    dbscanFromMatrix n M epsilon minPts =
      dbscanFromMatrix n M' epsilon' minPts' := by
  rw [hM, he, hm]

/-- Witness for C7 at a concrete input. -/
theorem dbscan_deterministic_witness :
    dbscanFromMatrix 3 exChain (mkRat 85 100) 2 =
      dbscanFromMatrix 3 exChain (mkRat 85 100) 2 :=
  dbscan_deterministic 3 exChain exChain (mkRat 85 100) (mkRat 85 100) 2 2
    rfl rfl rfl

/-- C9 (Scenario C): on the 3-chain matrix (0↔1 and 1↔2 similarity 0.9,
0↔2 similarity 0.3, unit diagonal) with threshold 0.85 and `minPts` 2,
`dbscan` returns the single cluster {0, 1, 2} and empty noise; index 2 is
not a neighbor of the scan root 0, but is a neighbor of the core point 1,
so the expansion reaches it transitively. -/
theorem dbscan_chain_scenario :
    matrixEntry exChain 0 0 = 1 ∧ matrixEntry exChain 1 1 = 1 ∧
    matrixEntry exChain 2 2 = 1 ∧
    matrixEntry exChain 0 1 = mkRat 9 10 ∧
    matrixEntry exChain 1 0 = mkRat 9 10 ∧
    matrixEntry exChain 1 2 = mkRat 9 10 ∧
    matrixEntry exChain 2 1 = mkRat 9 10 ∧
    matrixEntry exChain 0 2 = mkRat 3 10 ∧
    matrixEntry exChain 2 0 = mkRat 3 10 ∧
    2 ∉ getNeighborsFromMatrix 3 exChain (mkRat 85 100) 0 ∧
    2 ∈ getNeighborsFromMatrix 3 exChain (mkRat 85 100) 1 ∧
    2 ≤ (getNeighborsFromMatrix 3 exChain (mkRat 85 100) 1).length ∧
    dbscanFromMatrix 3 exChain (mkRat 85 100) 2 =
      { clusters := [[0, 1, 2]], noise := [] } := by
  decide

/-- C10: the empty input is not rejected — `dbscan` on zero points returns
the empty cluster sequence and the empty noise set for every parameter
combination and every outcome of the accelerated attempt, and the
sequential strategy returns the empty matrix.  (With `useGPU` set, the JS
accelerated attempt throws on `points[0]` and the `catch` falls back, so no
error escapes there either.) -/
theorem dbscan_empty_input :
    ∀ (epsilon : ℚ) (minPts : ℕ) (useGPU gpuAvailable : Bool)
      (attempt : Except String (List (List ℚ))),
      dbscan [] epsilon minPts useGPU gpuAvailable attempt =
        { clusters := [], noise := [] } ∧
      computeDistanceMatrixCPU [] = [] := by
  intro epsilon minPts u g a
  refine ⟨?_, rfl⟩
  cases u with
  | false => rfl
  | true =>
    cases g with
    | false => rfl
    | true =>
      cases a with
      | error e => rfl
      | ok m => rfl

theorem dbscan_cluster_unique (n : ℕ) (M : List (List ℚ)) (epsilon : ℚ)
    (minPts : ℕ) :
    ∀ c ∈ (dbscanFromMatrix n M epsilon minPts).clusters,
      ∀ c' ∈ (dbscanFromMatrix n M epsilon minPts).clusters,
        ∀ i, i ∈ c → i ∈ c' → c = c' := by
  intro c hc c' hc' i hic hic'
  obtain ⟨k, hk, he⟩ := (mem_list_iff_getD _ ([] : List ℕ) c).1 hc
  obtain ⟨k', hk', he'⟩ := (mem_list_iff_getD _ ([] : List ℕ) c').1 hc'
  rw [dbscan_clusters_length] at hk hk'
  rw [← he] at hic
  rw [← he'] at hic'
  have h1 := (dbscan_mem_cluster_getD n M epsilon minPts k hk i).1 hic
  have h2 := (dbscan_mem_cluster_getD n M epsilon minPts k' hk' i).1 hic'
  have hkk : ((k : ℕ) : ℤ) = ((k' : ℕ) : ℤ) := by
    have := h1.2
    rw [h2.2] at this
    simpa using this.symm
  have : k = k' := by omega
  rw [← he, ← he', this]

/-- C2: for every n×n similarity matrix, threshold and `minPts ≥ 1`, after
`dbscan` completes every index below `n` appears in exactly one of the
returned clusters or the returned noise set (first two conjuncts: an index
is in some cluster exactly when it is not in noise, and the cluster
containing it is unique); clusters contain only indices below `n`; every
returned cluster is non-empty; every index received a final mark
(its assignment is not `null`); and the noise set is exactly the set of
indices whose assignment is the noise mark `-1` — since assignments are
only ever written when still `null` (see the expansion lemmas above), these
are precisely the indices that never received a cluster assignment during
the run. -/
theorem dbscan_partition (n : ℕ) (M : List (List ℚ)) (epsilon : ℚ)
    (minPts : ℕ) (hmp : 1 ≤ minPts) :
    (∀ i, i < n →
      ((∃ c ∈ (dbscanFromMatrix n M epsilon minPts).clusters, i ∈ c) ↔
        i ∉ (dbscanFromMatrix n M epsilon minPts).noise)) ∧
    (∀ c ∈ (dbscanFromMatrix n M epsilon minPts).clusters,
      ∀ c' ∈ (dbscanFromMatrix n M epsilon minPts).clusters,
        ∀ i, i ∈ c → i ∈ c' → c = c') ∧
    (∀ c ∈ (dbscanFromMatrix n M epsilon minPts).clusters, ∀ i ∈ c, i < n) ∧
    (∀ c ∈ (dbscanFromMatrix n M epsilon minPts).clusters, c ≠ []) ∧
    (∀ i, i < n →
      (dbscanScan n M epsilon minPts).1.assignments.getD i none ≠ none) ∧
    (∀ i, i ∈ (dbscanFromMatrix n M epsilon minPts).noise ↔
      (i < n ∧ (dbscanScan n M epsilon minPts).1.assignments.getD i none =
        some (-1))) := by
  refine ⟨?_, dbscan_cluster_unique n M epsilon minPts, ?_, ?_, ?_, ?_⟩
  · intro i hi
    constructor
    · intro hex hnoise
      obtain ⟨v, h0, hv⟩ :=
        (dbscan_exists_cluster_iff n M epsilon minPts i).1 hex
      have hneg := (dbscan_noise_iff n M epsilon minPts i).1 hnoise
      rw [hneg] at hv
      have : (-1 : ℤ) = v := by simpa using hv
      omega
    · intro hnoise
      have htot := dbscanScan_total n M epsilon minPts i hi
      cases hv : (dbscanScan n M epsilon minPts).1.assignments.getD i none
        with
      | none => exact absurd hv htot
      | some v =>
        have hne : v ≠ -1 := by
          intro h
          subst h
          exact hnoise ((dbscan_noise_iff n M epsilon minPts i).2 hv)
        obtain ⟨⟨_, _, _, hvals, _, _⟩, _, _, _⟩ :=
          dbscanScan_inv n M epsilon minPts
        rcases hvals i v hv with h | h
        · exact absurd h hne
        · exact (dbscan_exists_cluster_iff n M epsilon minPts i).2
            ⟨v, h.1, hv⟩
  · intro c hc i hic
    obtain ⟨k, hk, he⟩ := (mem_list_iff_getD _ ([] : List ℕ) c).1 hc
    rw [dbscan_clusters_length] at hk
    rw [← he] at hic
    exact ((dbscan_mem_cluster_getD n M epsilon minPts k hk i).1 hic).1
  · intro c hc
    obtain ⟨k, hk, he⟩ := (mem_list_iff_getD _ ([] : List ℕ) c).1 hc
    rw [dbscan_clusters_length] at hk
    obtain ⟨⟨_, _, _, _, hwit, _⟩, hcid, _, _⟩ :=
      dbscanScan_inv n M epsilon minPts
    obtain ⟨i, hin, hia⟩ := hwit ((k : ℕ) : ℤ) (by omega) (by omega)
    have : i ∈ c := by
      rw [← he]
      exact (dbscan_mem_cluster_getD n M epsilon minPts k hk i).2 ⟨hin, hia⟩
    exact List.ne_nil_of_mem this
  · exact dbscanScan_total n M epsilon minPts
  · intro i
    constructor
    · intro hnoise
      have hneg := (dbscan_noise_iff n M epsilon minPts i).1 hnoise
      exact ⟨dbscanScan_assign_lt_range n M epsilon minPts i (-1) hneg, hneg⟩
    · intro ⟨_, hneg⟩
      exact (dbscan_noise_iff n M epsilon minPts i).2 hneg

/-- Witness for C2 at a concrete input: the 2×2 identity matrix with
threshold 1 and `minPts` 1 (two singleton clusters, empty noise). -/
theorem dbscan_partition_witness :
    (∀ i, i < 2 →
      ((∃ c ∈ (dbscanFromMatrix 2 [[1, 0], [0, 1]] 1 1).clusters, i ∈ c) ↔
        i ∉ (dbscanFromMatrix 2 [[1, 0], [0, 1]] 1 1).noise)) ∧
    (∀ c ∈ (dbscanFromMatrix 2 [[1, 0], [0, 1]] 1 1).clusters,
      ∀ c' ∈ (dbscanFromMatrix 2 [[1, 0], [0, 1]] 1 1).clusters,
        ∀ i, i ∈ c → i ∈ c' → c = c') ∧
    (∀ c ∈ (dbscanFromMatrix 2 [[1, 0], [0, 1]] 1 1).clusters,
      ∀ i ∈ c, i < 2) ∧
    (∀ c ∈ (dbscanFromMatrix 2 [[1, 0], [0, 1]] 1 1).clusters, c ≠ []) ∧
    (∀ i, i < 2 →
      (dbscanScan 2 [[1, 0], [0, 1]] 1 1).1.assignments.getD i none ≠
        none) ∧
    (∀ i, i ∈ (dbscanFromMatrix 2 [[1, 0], [0, 1]] 1 1).noise ↔
      (i < 2 ∧ (dbscanScan 2 [[1, 0], [0, 1]] 1 1).1.assignments.getD i
        none = some (-1))) :=
  dbscan_partition 2 [[1, 0], [0, 1]] 1 1 (by decide)

/-! ### Noise bookkeeping across scan turns -/

theorem scan_noise_succ (n : ℕ) (M : List (List ℚ)) (epsilon : ℚ)
    (minPts : ℕ) (m i : ℕ) :
    i ∈ (scanStates n M epsilon minPts (m + 1)).1.noise ↔
      (i ∈ (scanStates n M epsilon minPts m).1.noise ∨
        (i = m ∧ m ∉ (scanStates n M epsilon minPts m).1.visited ∧
          (getNeighborsFromMatrix n M epsilon m).length < minPts)) := by
  rw [scanStates_succ]
  by_cases hv : m ∈ (scanStates n M epsilon minPts m).1.visited
  · rw [scanStep_of_mem hv]
    constructor
    · exact Or.inl
    · rintro (h | ⟨_, hnv, _⟩)
      · exact h
      · exact absurd hv hnv
  · by_cases hlen : (getNeighborsFromMatrix n M epsilon m).length < minPts
    · rw [scanStep_noise hv hlen]
      dsimp only
      rw [List.mem_append]
      constructor
      · rintro (h | h)
        · exact Or.inl h
        · exact Or.inr ⟨List.mem_singleton.1 h, hv, hlen⟩
      · rintro (h | ⟨he, _, _⟩)
        · exact Or.inl h
        · exact Or.inr (List.mem_singleton.2 he)
    · rw [scanStep_core hv hlen]
      dsimp only
      rw [expandCluster_noise_const]
      dsimp only
      constructor
      · exact Or.inl
      · rintro (h | ⟨_, _, hl⟩)
        · exact h
        · exact absurd hl hlen

theorem noise_empty_of_minpts_one (n : ℕ) (M : List (List ℚ))
    (epsilon : ℚ)
    (hdiag : ∀ i, i < n → epsilon ≤ matrixEntry M i i) :
    ∀ m, m ≤ n → (scanStates n M epsilon 1 m).1.noise = [] := by
  intro m
  induction m with
  | zero => intro _; rfl
  | succ m ih =>
    intro h
    have hm := ih (by omega)
    refine List.eq_nil_iff_forall_not_mem.2 ?_
    intro i hi
    rcases (scan_noise_succ n M epsilon 1 m i).1 hi with h' | ⟨he, _, hlen⟩
    · rw [hm] at h'
      exact List.not_mem_nil i h'
    · subst he
      have hmem : i ∈ getNeighborsFromMatrix n M epsilon i :=
        mem_getNeighbors.2 ⟨by omega, hdiag i (by omega)⟩
      have hnil : getNeighborsFromMatrix n M epsilon i = [] := by
        have : (getNeighborsFromMatrix n M epsilon i).length = 0 := by omega
        exact List.length_eq_zero.1 this
      rw [hnil] at hmem
      exact List.not_mem_nil i hmem

/-- C8: for every similarity matrix whose diagonal entries all reach the
threshold, `dbscan` with `minPts = 1` produces an empty noise set and
places every index below `n` in exactly one cluster: every scan root has a
self-inclusive neighborhood of size at least 1 and so is a core point. -/
theorem dbscan_minpts_one (n : ℕ) (M : List (List ℚ)) (epsilon : ℚ)
    (hdiag : ∀ i, i < n → epsilon ≤ matrixEntry M i i) :
    (dbscanFromMatrix n M epsilon 1).noise = [] ∧
    (∀ i, i < n →
      ∃ c ∈ (dbscanFromMatrix n M epsilon 1).clusters, i ∈ c) ∧
    (∀ c ∈ (dbscanFromMatrix n M epsilon 1).clusters,
      ∀ c' ∈ (dbscanFromMatrix n M epsilon 1).clusters,
        ∀ i, i ∈ c → i ∈ c' → c = c') := by
  have hnil : (dbscanFromMatrix n M epsilon 1).noise = [] :=
    noise_empty_of_minpts_one n M epsilon hdiag n (le_refl n)
  refine ⟨hnil, ?_, dbscan_cluster_unique n M epsilon 1⟩
  intro i hi
  have htot := dbscanScan_total n M epsilon 1 i hi
  cases hv : (dbscanScan n M epsilon 1).1.assignments.getD i none with
  | none => exact absurd hv htot
  | some v =>
    have hne : v ≠ -1 := by
      intro h
      subst h
      have : i ∈ (dbscanFromMatrix n M epsilon 1).noise :=
        (dbscan_noise_iff n M epsilon 1 i).2 hv
      rw [hnil] at this
      exact List.not_mem_nil i this
    obtain ⟨⟨_, _, _, hvals, _, _⟩, _, _, _⟩ := dbscanScan_inv n M epsilon 1
    rcases hvals i v hv with h | h
    · exact absurd h hne
    · exact (dbscan_exists_cluster_iff n M epsilon 1 i).2 ⟨v, h.1, hv⟩

/-- Witness for C8 at a concrete input: the 2×2 identity matrix with
threshold 1. -/
theorem dbscan_minpts_one_witness :
    (dbscanFromMatrix 2 [[1, 0], [0, 1]] 1 1).noise = [] ∧
    (∀ i, i < 2 →
      ∃ c ∈ (dbscanFromMatrix 2 [[1, 0], [0, 1]] 1 1).clusters, i ∈ c) ∧
    (∀ c ∈ (dbscanFromMatrix 2 [[1, 0], [0, 1]] 1 1).clusters,
      ∀ c' ∈ (dbscanFromMatrix 2 [[1, 0], [0, 1]] 1 1).clusters,
        ∀ i, i ∈ c → i ∈ c' → c = c') :=
  dbscan_minpts_one 2 [[1, 0], [0, 1]] 1 (by decide)

/-- Counterexample to C1 as stated: on the matrix `exAbsorb` with threshold
1/2 and `minPts` 3, index 0 is provisionally labeled noise at its scan-root
visit (its assignment becomes `-1`, not `null`); index 0 is in the seed
queue of the expansion rooted at the core point 1 (it is a neighbor of 1),
so it is dequeued there, yet it is not assigned to the cluster — the
reassignment check compares against `null` and `-1 ≠ null` — and it remains
in the final noise set.  The claim predicted that such a point is absorbed
into the cluster and absent from the final noise set; the code returns
noise `[0]` and clusters `[[1, 2]]`. -/
theorem noise_absorption_counterexample :
    0 ∈ getNeighborsFromMatrix 3 exAbsorb (mkRat 1 2) 1 ∧
    3 ≤ (getNeighborsFromMatrix 3 exAbsorb (mkRat 1 2) 1).length ∧
    (getNeighborsFromMatrix 3 exAbsorb (mkRat 1 2) 0).length < 3 ∧
    (dbscanFromMatrix 3 exAbsorb (mkRat 1 2) 3).noise = [0] ∧
    (dbscanFromMatrix 3 exAbsorb (mkRat 1 2) 3).clusters = [[1, 2]] := by
  decide

/-- C1 (amended): during cluster expansion a dequeued point is assigned to
the current cluster id only when its assignment is still `null`; the
cluster assignment and the noise label are NOT tracked independently — a
scan root labeled noise gets assignment `-1` — so a noise-labeled point is
never absorbed by a later expansion: any non-`null` assignment (including
`-1`) survives every expansion unchanged, and every index in the returned
noise set has final assignment `-1` and belongs to no returned cluster. -/
theorem noise_label_permanent (n : ℕ) (M : List (List ℚ)) (epsilon : ℚ)
    (minPts : ℕ) :
    (∀ (clusterId : ℤ) (fuel : ℕ) (seeds : List ℕ) (s : DbscanState)
      (i : ℕ) (v : ℤ),
      s.assignments.getD i none = some v →
      (expandLoop n M epsilon minPts clusterId fuel seeds
        s).assignments.getD i none = some v) ∧
    (∀ i ∈ (dbscanFromMatrix n M epsilon minPts).noise,
      (dbscanScan n M epsilon minPts).1.assignments.getD i none =
        some (-1) ∧
      ∀ c ∈ (dbscanFromMatrix n M epsilon minPts).clusters, i ∉ c) := by
  constructor
  · intro clusterId fuel seeds s i v h
    exact expandLoop_assign_mono n M epsilon minPts clusterId fuel seeds s
      i v h
  · intro i hi
    have hneg := (dbscan_noise_iff n M epsilon minPts i).1 hi
    refine ⟨hneg, ?_⟩
    intro c hc hic
    obtain ⟨v, h0, hv⟩ :=
      (dbscan_exists_cluster_iff n M epsilon minPts i).1 ⟨c, hc, hic⟩
    rw [hneg] at hv
    have : (-1 : ℤ) = v := by simpa using hv
    omega

/-- Witness for the amended C1 at a concrete input: a state in which index
0 carries the noise mark keeps it through an expansion of cluster 0, and on
`exAbsorb` the noise point 0 has final assignment `-1` and is in no
cluster. -/
theorem noise_label_permanent_witness :
    (expandLoop 3 exAbsorb (mkRat 1 2) 3 0 6 [0, 1, 2]
      { visited := [0, 1], noise := [0],
        assignments := [some (-1), some 0, none] }).assignments.getD 0
      none = some (-1) ∧
    ((dbscanScan 3 exAbsorb (mkRat 1 2) 3).1.assignments.getD 0 none =
      some (-1) ∧
      ∀ c ∈ (dbscanFromMatrix 3 exAbsorb (mkRat 1 2) 3).clusters, 0 ∉ c) :=
  ⟨(noise_label_permanent 3 exAbsorb (mkRat 1 2) 3).1 0 6 [0, 1, 2]
      { visited := [0, 1], noise := [0],
        assignments := [some (-1), some 0, none] } 0 (-1) (by decide),
    (noise_label_permanent 3 exAbsorb (mkRat 1 2) 3).2 0 (by decide)⟩

/-! ### Visited-set monotonicity along the scan -/

theorem scan_visited_step (n : ℕ) (M : List (List ℚ)) (epsilon : ℚ)
    (minPts : ℕ) (m x : ℕ)
    (hx : x ∈ (scanStates n M epsilon minPts m).1.visited) :
    x ∈ (scanStates n M epsilon minPts (m + 1)).1.visited := by
  rw [scanStates_succ]
  by_cases hv : m ∈ (scanStates n M epsilon minPts m).1.visited
  · rw [scanStep_of_mem hv]
    exact hx
  · by_cases hlen : (getNeighborsFromMatrix n M epsilon m).length < minPts
    · rw [scanStep_noise hv hlen]
      dsimp only
      exact List.mem_append.2 (Or.inl hx)
    · rw [scanStep_core hv hlen]
      dsimp only
      refine expandCluster_visited_mono n M epsilon minPts m _ _ _ x ?_
      dsimp only
      exact List.mem_append.2 (Or.inl hx)

theorem scan_visited_mono (n : ℕ) (M : List (List ℚ)) (epsilon : ℚ)
    (minPts : ℕ) :
    ∀ m m', m ≤ m' → ∀ x,
      x ∈ (scanStates n M epsilon minPts m).1.visited →
      x ∈ (scanStates n M epsilon minPts m').1.visited := by
  intro m m' h
  induction m' with
  | zero =>
    intro x hx
    have hm0 : m = 0 := by omega
    subst hm0
    exact hx
  | succ m' ih =>
    intro x hx
    by_cases hm : m = m' + 1
    · subst hm
      exact hx
    · exact scan_visited_step n M epsilon minPts m' x (ih (by omega) x hx)

theorem scan_self_visited (n : ℕ) (M : List (List ℚ)) (epsilon : ℚ)
    (minPts : ℕ) (m : ℕ) :
    m ∈ (scanStates n M epsilon minPts (m + 1)).1.visited := by
  rw [scanStates_succ]
  by_cases hv : m ∈ (scanStates n M epsilon minPts m).1.visited
  · rw [scanStep_of_mem hv]
    exact hv
  · by_cases hlen : (getNeighborsFromMatrix n M epsilon m).length < minPts
    · rw [scanStep_noise hv hlen]
      dsimp only
      exact List.mem_append.2 (Or.inr (List.mem_singleton.2 rfl))
    · rw [scanStep_core hv hlen]
      dsimp only
      refine expandCluster_visited_mono n M epsilon minPts m _ _ _ m ?_
      dsimp only
      exact List.mem_append.2 (Or.inr (List.mem_singleton.2 rfl))

/-! ### Cross-threshold monotonicity of the visited set

Core points stay core when the threshold decreases (their neighborhoods
only grow), and the visited set of the later scan is closed under
neighborhoods of visited core points, so every index visited by turn `m` at
the higher threshold is also visited by turn `m` at the lower threshold. -/

theorem visited_mono_eps (n : ℕ) (M : List (List ℚ)) (minPts : ℕ)
    (epsilonH epsilonL : ℚ) (hle : epsilonL ≤ epsilonH) :
    ∀ m, m ≤ n → ∀ x,
      x ∈ (scanStates n M epsilonH minPts m).1.visited →
      x ∈ (scanStates n M epsilonL minPts m).1.visited := by
  intro m
  induction m with
  | zero =>
    intro _ x hx
    exact hx
  | succ m ih =>
    intro hm1 x hx
    have hmn : m < n := hm1
    have ihm := ih (by omega)
    rw [scanStates_succ] at hx
    by_cases hv : m ∈ (scanStates n M epsilonH minPts m).1.visited
    · rw [scanStep_of_mem hv] at hx
      exact scan_visited_step n M epsilonL minPts m x (ihm x hx)
    · by_cases hlen :
        (getNeighborsFromMatrix n M epsilonH m).length < minPts
      · rw [scanStep_noise hv hlen] at hx
        dsimp only at hx
        rcases List.mem_append.1 hx with h | h
        · exact scan_visited_step n M epsilonL minPts m x (ihm x h)
        · rw [List.mem_singleton.1 h]
          exact scan_self_visited n M epsilonL minPts m
      · rw [scanStep_core hv hlen] at hx
        dsimp only at hx
        -- the expansion at the higher threshold stays inside the visited
        -- set of the lower-threshold scan after turn m
        have hclosedL := (scanInv_holds n M epsilonL minPts (m + 1)
          (by omega)).2.2.2
        have hWm : ∀ y, y ∈ (scanStates n M epsilonH minPts m).1.visited →
            y ∈ (scanStates n M epsilonL minPts (m + 1)).1.visited :=
          fun y hy => scan_visited_step n M epsilonL minPts m y (ihm y hy)
        have hWself : m ∈ (scanStates n M epsilonL minPts (m + 1)).1.visited :=
          scan_self_visited n M epsilonL minPts m
        have hWclose : ∀ c, c < n →
            c ∈ (scanStates n M epsilonL minPts (m + 1)).1.visited →
            minPts ≤ (getNeighborsFromMatrix n M epsilonH c).length →
            ∀ y ∈ getNeighborsFromMatrix n M epsilonH c,
              y ∈ (scanStates n M epsilonL minPts (m + 1)).1.visited := by
          intro c hcn hcv hcc y hy
          have hccL : minPts ≤ (getNeighborsFromMatrix n M epsilonL c).length :=
            le_trans hcc (getNeighbors_anti_length hle c)
          have hyL : y ∈ getNeighborsFromMatrix n M epsilonL c :=
            getNeighbors_anti_mem hle hy
          rcases hclosedL c hcn hcv hccL y hyL with h | h
          · exact h
          · exact absurd h (List.not_mem_nil y)
        have hstep : ∀ p rest (s : DbscanState), p < n →
            (∀ y ∈ rest, y < n) →
            ((∀ y ∈ s.visited,
              y ∈ (scanStates n M epsilonL minPts (m + 1)).1.visited) ∧
             (∀ y ∈ p :: rest,
              y ∈ (scanStates n M epsilonL minPts (m + 1)).1.visited)) →
            ((∀ y ∈ (expandVisit n M epsilonH minPts p rest s).2.visited,
              y ∈ (scanStates n M epsilonL minPts (m + 1)).1.visited) ∧
             (∀ y ∈ (expandVisit n M epsilonH minPts p rest s).1,
              y ∈ (scanStates n M epsilonL minPts (m + 1)).1.visited)) := by
          intro p rest s hpn _ hP
          obtain ⟨hPv, hPs⟩ := hP
          have hPrest : ∀ y ∈ rest,
              y ∈ (scanStates n M epsilonL minPts (m + 1)).1.visited :=
            fun y hy => hPs y (List.mem_cons_of_mem p hy)
          have hPp : p ∈ (scanStates n M epsilonL minPts (m + 1)).1.visited :=
            hPs p (List.mem_cons_self p rest)
          by_cases hpv : p ∈ s.visited
          · rw [expandVisit_of_mem hpv]
            exact ⟨hPv, hPrest⟩
          · by_cases hpc :
              minPts ≤ (getNeighborsFromMatrix n M epsilonH p).length
            · rw [expandVisit_core hpv hpc]
              dsimp only
              constructor
              · intro y hy
                rcases List.mem_append.1 hy with h | h
                · exact hPv y h
                · rw [List.mem_singleton.1 h]
                  exact hPp
              · intro y hy
                rcases List.mem_append.1 hy with h | h
                · exact hPrest y h
                · exact hWclose p hpn hPp hpc y (List.mem_of_mem_filter h)
            · rw [expandVisit_noncore hpv hpc]
              dsimp only
              constructor
              · intro y hy
                rcases List.mem_append.1 hy with h | h
                · exact hPv y h
                · rw [List.mem_singleton.1 h]
                  exact hPp
              · exact hPrest
        unfold expandCluster at hx
        have hrun := expandLoop_run n M epsilonH minPts
          (scanStates n M epsilonH minPts m).2
          (fun seeds s =>
            (∀ y ∈ s.visited,
              y ∈ (scanStates n M epsilonL minPts (m + 1)).1.visited) ∧
            (∀ y ∈ seeds,
              y ∈ (scanStates n M epsilonL minPts (m + 1)).1.visited))
          (fun p rest s hpn hrest hP => by
            dsimp only
            rw [expandAssign_visited]
            exact hstep p rest s hpn hrest hP)
          ((getNeighborsFromMatrix n M epsilonH m).length + n * n)
          (getNeighborsFromMatrix n M epsilonH m)
          { visited := (scanStates n M epsilonH minPts m).1.visited ++ [m],
            noise := (scanStates n M epsilonH minPts m).1.noise,
            assignments :=
              ((scanStates n M epsilonH minPts m).1.assignments).set m
                (some (scanStates n M epsilonH minPts m).2) }
          (fun y hy => getNeighbors_lt hy) ?_ ?_
        · exact hrun.1 x hx
        · -- the budget covers the measure
          unfold expandMeasure
          dsimp only
          have hcu := unvisitedCount_le n
            ((scanStates n M epsilonH minPts m).1.visited ++ [m])
          have hmul := Nat.mul_le_mul_left n hcu
          omega
        · -- the relative invariant holds on entry
          constructor
          · intro y hy
            dsimp only at hy
            rcases List.mem_append.1 hy with h | h
            · exact hWm y h
            · rw [List.mem_singleton.1 h]
              exact hWself
          · intro y hy
            have hmc :
                minPts ≤ (getNeighborsFromMatrix n M epsilonH m).length := by
              omega
            exact hWclose m hmn hWself hmc y hy

/-- Noise points of the lower-threshold run are noise points of the
higher-threshold run: a point becomes noise only as an unvisited scan root
with a too-small neighborhood, neighborhoods only shrink as the threshold
rises, and the visited sets only shrink as well. -/
theorem noise_mono_eps (n : ℕ) (M : List (List ℚ)) (minPts : ℕ)
    (epsilonH epsilonL : ℚ) (hle : epsilonL ≤ epsilonH) :
    ∀ m, m ≤ n → ∀ i, i ∈ (scanStates n M epsilonL minPts m).1.noise →
      i ∈ (scanStates n M epsilonH minPts m).1.noise := by
  intro m
  induction m with
  | zero =>
    intro _ i hi
    exact hi
  | succ m ih =>
    intro hm1 i hi
    rcases (scan_noise_succ n M epsilonL minPts m i).1 hi with
      h | ⟨he, hnv, hlen⟩
    · exact (scan_noise_succ n M epsilonH minPts m i).2
        (Or.inl (ih (by omega) i h))
    · subst he
      have hnvH : i ∉ (scanStates n M epsilonH minPts i).1.visited :=
        fun hmem => hnv (visited_mono_eps n M minPts epsilonH epsilonL hle i
          (by omega) i hmem)
      have hlenH : (getNeighborsFromMatrix n M epsilonH i).length < minPts :=
        lt_of_le_of_lt (getNeighbors_anti_length hle i) hlen
      exact (scan_noise_succ n M epsilonH minPts i i).2
        (Or.inr ⟨rfl, hnvH, hlenH⟩)

/-- Counterexample to C3 as stated: on the symmetric unit-diagonal 9×9
matrix `exSplit` with `minPts` 4, at threshold 8/10 the clusters are
{0,1,2,3} and {4,5,6,7,8} (the border point 8 is claimed through the core
point 7); at the lower threshold 5/10 the scan rooted at 0 reaches the
border point 8 first (through the new core link 3–8), so the clusters are
{0,1,2,3,8} and {4,5,6,7}.  The cluster {4,5,6,7,8} produced at the higher
threshold is contained in no single cluster produced at the lower
threshold: lowering the threshold moved the border point 8 from one
cluster to another and thereby shrank an existing cluster, contradicting
the claimed containment. -/
theorem threshold_monotonicity_counterexample :
    (mkRat 5 10 : ℚ) < mkRat 8 10 ∧
    (dbscanFromMatrix 9 exSplit (mkRat 8 10) 4).clusters =
      [[0, 1, 2, 3], [4, 5, 6, 7, 8]] ∧
    (dbscanFromMatrix 9 exSplit (mkRat 5 10) 4).clusters =
      [[0, 1, 2, 3, 8], [4, 5, 6, 7]] ∧
    (dbscanFromMatrix 9 exSplit (mkRat 8 10) 4).noise = [] ∧
    (dbscanFromMatrix 9 exSplit (mkRat 5 10) 4).noise = [] ∧
    (4 ∈ [4, 5, 6, 7, 8] ∧ (4 : ℕ) ∉ [0, 1, 2, 3, 8]) ∧
    (8 ∈ [4, 5, 6, 7, 8] ∧ (8 : ℕ) ∉ [4, 5, 6, 7]) := by
  decide

/-- C3 (amended): for a fixed similarity matrix and `minPts`, decreasing
the threshold never moves a clustered point into the noise set — every
index belonging to some cluster at threshold `epsilon` belongs to some
cluster (and not to noise) at every threshold `epsilon' ≤ epsilon`.  The
containment half of the original claim is false
(see the counterexample): a cluster produced at the higher threshold need
not be contained in a single cluster at the lower one, because a border
point can be claimed by a different, earlier-scanned cluster. -/
theorem threshold_no_new_noise (n : ℕ) (M : List (List ℚ)) (minPts : ℕ)
    (epsilon epsilon' : ℚ) (hle : epsilon' ≤ epsilon) (i : ℕ)
    (hc : ∃ c ∈ (dbscanFromMatrix n M epsilon minPts).clusters, i ∈ c) :
    i ∉ (dbscanFromMatrix n M epsilon' minPts).noise ∧
    ∃ c' ∈ (dbscanFromMatrix n M epsilon' minPts).clusters, i ∈ c' := by
  obtain ⟨v, h0, hv⟩ := (dbscan_exists_cluster_iff n M epsilon minPts i).1 hc
  have hin : i < n := dbscanScan_assign_lt_range n M epsilon minPts i v hv
  have hnoiseH : i ∉ (dbscanFromMatrix n M epsilon minPts).noise := by
    intro hnoise
    have hneg := (dbscan_noise_iff n M epsilon minPts i).1 hnoise
    rw [hneg] at hv
    have : (-1 : ℤ) = v := by simpa using hv
    omega
  have hnoiseL : i ∉ (dbscanFromMatrix n M epsilon' minPts).noise := by
    intro hnoise
    exact hnoiseH (noise_mono_eps n M minPts epsilon epsilon' hle n
      (le_refl n) i hnoise)
  refine ⟨hnoiseL, ?_⟩
  have htot := dbscanScan_total n M epsilon' minPts i hin
  cases hv' : (dbscanScan n M epsilon' minPts).1.assignments.getD i none with
  | none => exact absurd hv' htot
  | some w =>
    have hne : w ≠ -1 := by
      intro h
      subst h
      exact hnoiseL ((dbscan_noise_iff n M epsilon' minPts i).2 hv')
    obtain ⟨⟨_, _, _, hvals, _, _⟩, _, _, _⟩ :=
      dbscanScan_inv n M epsilon' minPts
    rcases hvals i w hv' with h | h
    · exact absurd h hne
    · exact (dbscan_exists_cluster_iff n M epsilon' minPts i).2 ⟨w, h.1, hv'⟩

/-- Witness for the amended C3 at a concrete input: on the chain matrix,
index 2 is clustered at threshold 0.85 and remains clustered (and outside
noise) at the lower threshold 0.5. -/
theorem threshold_no_new_noise_witness :
    2 ∉ (dbscanFromMatrix 3 exChain (mkRat 5 10) 2).noise ∧
    ∃ c' ∈ (dbscanFromMatrix 3 exChain (mkRat 5 10) 2).clusters, 2 ∈ c' :=
  threshold_no_new_noise 3 exChain 2 (mkRat 85 100) (mkRat 5 10)
    (by decide) 2 (by decide)
